import Mathlib

/-!
# Verification of the public-sector intelligence scraper core

Shallow embedding of the crawler (`src/scraper/*.ts`), the link ranker
(`src/scraper/ranker.ts`) and the document chunker (`src/services/chunker.ts`).

Strings are modelled as `List Char` wrapped in `String`; JS `number` scores in
`[0,1]` are modelled as `ℚ`; the WHATWG `URL` class is modelled by a small
structured parser (`parseUrlL`) covering `scheme://host/path?query#frag` URLs
with ASCII, already-lowercase components (the only shape the claims exercise);
the network (page fetches, the LLM classification service, the robots.txt
response) is abstracted as explicit oracles passed to the functions that used
to perform I/O.  External library code (the `gpt-tokenizer` `encode`, the
Playwright extractor) is not in the repository; following the spec it is
modelled as an abstract parameter, or by a concrete model tokenizer where a
concrete count is needed.
-/

set_option linter.unusedVariables false

namespace Scraper

/-! ## Generic list helpers (JS string/array primitives) -/

/-- Whitespace test matching JS `\s` on the ASCII range. -/
def isWs (c : Char) : Bool :=
  c = ' ' ∨ c = '\t' ∨ c = '\n' ∨ c = '\r'

/-- JS `String.prototype.split` with a single-character separator. -/
def splitChar (sep : Char) : List Char → List (List Char)
  | [] => [[]]
  | c :: cs =>
    if c = sep then [] :: splitChar sep cs
    else (c :: (splitChar sep cs).headI) :: (splitChar sep cs).tail

theorem splitChar_ne_nil (sep : Char) (l : List Char) : splitChar sep l ≠ [] := by
  cases l with
  | nil => simp [splitChar]
  | cons c cs => simp only [splitChar]; split <;> simp

/-- Join pieces with a single-character separator (inverse of `splitChar`). -/
def joinSep (sep : Char) : List (List Char) → List Char
  | [] => []
  | [p] => p
  | p :: ps => p ++ sep :: joinSep sep ps

theorem splitChar_cons_sep (sep : Char) (l : List Char) :
    splitChar sep (sep :: l) = [] :: splitChar sep l := by
  simp [splitChar]

theorem splitChar_cons_ne (sep c : Char) (l : List Char) (hc : c ≠ sep) :
    splitChar sep (c :: l) =
      (c :: (splitChar sep l).headI) :: (splitChar sep l).tail := by
  simp [splitChar, hc]

/-- Splitting after a separator-free prefix peels that prefix off the head. -/
theorem splitChar_sepfree_append (sep : Char) (p l : List Char)
    (hp : ∀ c ∈ p, c ≠ sep) :
    splitChar sep (p ++ sep :: l) = p :: splitChar sep l := by
  induction p with
  | nil => simpa using splitChar_cons_sep sep l
  | cons c cs ih =>
    have hc : c ≠ sep := hp c (by simp)
    have ihh := ih (fun x hx => hp x (by simp [hx]))
    rw [List.cons_append, splitChar_cons_ne sep c _ hc, ihh]
    simp

/-- A separator-free list splits into itself. -/
theorem splitChar_sepfree (sep : Char) (p : List Char) (hp : ∀ c ∈ p, c ≠ sep) :
    splitChar sep p = [p] := by
  induction p with
  | nil => rfl
  | cons c cs ih =>
    have hc : c ≠ sep := hp c (by simp)
    have ihh := ih (fun x hx => hp x (by simp [hx]))
    rw [splitChar_cons_ne sep c _ hc, ihh]
    simp

theorem splitChar_joinSep (sep : Char) (ps : List (List Char))
    (hps : ps ≠ []) (h : ∀ p ∈ ps, ∀ c ∈ p, c ≠ sep) :
    splitChar sep (joinSep sep ps) = ps := by
  induction ps with
  | nil => exact absurd rfl hps
  | cons p ps ih =>
    cases ps with
    | nil => exact splitChar_sepfree sep p (h p (by simp))
    | cons q qs =>
      have hj : joinSep sep (p :: q :: qs) = p ++ sep :: joinSep sep (q :: qs) := rfl
      have hrest : ∀ r ∈ q :: qs, ∀ c ∈ r, c ≠ sep := by
        intro r hr
        exact h r (List.mem_cons_of_mem p hr)
      rw [hj, splitChar_sepfree_append sep p _ (h p (by simp)),
        ih (by simp) hrest]

/-- `takeWhile` over an all-satisfying prefix. -/
theorem takeWhile_append_all (p : Char → Bool) (l₁ l₂ : List Char)
    (h : ∀ x ∈ l₁, p x) :
    (l₁ ++ l₂).takeWhile p = l₁ ++ l₂.takeWhile p := by
  induction l₁ with
  | nil => simp
  | cons c cs ih =>
    have hc : p c := h c (by simp)
    simp only [List.cons_append, List.takeWhile_cons, hc, if_true]
    rw [ih (fun x hx => h x (by simp [hx]))]

theorem dropWhile_append_all (p : Char → Bool) (l₁ l₂ : List Char)
    (h : ∀ x ∈ l₁, p x) :
    (l₁ ++ l₂).dropWhile p = l₂.dropWhile p := by
  induction l₁ with
  | nil => simp
  | cons c cs ih =>
    have hc : p c := h c (by simp)
    simp only [List.cons_append, List.dropWhile_cons, hc, if_true]
    exact ih (fun x hx => h x (by simp [hx]))

theorem takeWhile_cons_neg (p : Char → Bool) (c : Char) (l : List Char)
    (h : ¬ p c) : (c :: l).takeWhile p = [] := by
  simp [List.takeWhile_cons, h]

theorem dropWhile_cons_neg (p : Char → Bool) (c : Char) (l : List Char)
    (h : ¬ p c) : (c :: l).dropWhile p = c :: l := by
  simp [List.dropWhile_cons, h]

/-! ## A stable descending insertion sort

JS `Array.prototype.sort` with comparator `(a, b) => key(b) - key(a)` is a
stable descending sort; insertion sort that inserts each element before the
first strictly-smaller key reproduces it exactly. -/

/-- Insert `a` before the first element with a strictly smaller key. -/
def insertDesc {α : Type} (key : α → ℚ) (a : α) : List α → List α
  | [] => [a]
  | b :: bs => if key a < key b then b :: insertDesc key a bs else a :: b :: bs

/-- Stable sort, descending by `key`. -/
def sortByDesc {α : Type} (key : α → ℚ) : List α → List α
  | [] => []
  | a :: as => insertDesc key a (sortByDesc key as)

theorem insertDesc_perm {α : Type} (key : α → ℚ) (a : α) (l : List α) :
    List.Perm (insertDesc key a l) (a :: l) := by
  induction l with
  | nil => exact List.Perm.refl _
  | cons b bs ih =>
    simp only [insertDesc]
    split
    · exact List.Perm.trans (ih.cons b) (List.Perm.swap a b bs)
    · exact List.Perm.refl _

theorem sortByDesc_perm {α : Type} (key : α → ℚ) (l : List α) :
    List.Perm (sortByDesc key l) l := by
  induction l with
  | nil => exact List.Perm.refl _
  | cons a as ih =>
    exact List.Perm.trans (insertDesc_perm key a (sortByDesc key as)) (ih.cons a)

theorem sortByDesc_length {α : Type} (key : α → ℚ) (l : List α) :
    (sortByDesc key l).length = l.length :=
  (sortByDesc_perm key l).length_eq

theorem insertDesc_pairwise {α : Type} (key : α → ℚ) (a : α) (l : List α)
    (h : l.Pairwise (fun x y => key y ≤ key x)) :
    (insertDesc key a l).Pairwise (fun x y => key y ≤ key x) := by
  induction l with
  | nil => simp [insertDesc]
  | cons b bs ih =>
    simp only [insertDesc]
    rcases List.pairwise_cons.mp h with ⟨hb, hbs⟩
    split
    · rename_i hlt
      refine List.pairwise_cons.mpr ⟨?_, ih hbs⟩
      intro x hx
      rcases List.mem_cons.mp ((insertDesc_perm key a bs).mem_iff.mp hx) with hxa | hxbs
      · subst hxa; exact le_of_lt hlt
      · exact hb x hxbs
    · rename_i hge
      refine List.pairwise_cons.mpr ⟨?_, h⟩
      intro x hx
      rcases List.mem_cons.mp hx with hxb | hxbs
      · subst hxb; exact le_of_not_lt hge
      · exact le_trans (hb x hxbs) (le_of_not_lt hge)

theorem sortByDesc_pairwise {α : Type} (key : α → ℚ) (l : List α) :
    (sortByDesc key l).Pairwise (fun x y => key y ≤ key x) := by
  induction l with
  | nil => simp [sortByDesc]
  | cons a as ih => exact insertDesc_pairwise key a _ ih

/-- Inserting into a list whose keys all equal the inserted key appends nothing
out of place: the element lands at the front only when no strictly smaller key
exists, i.e. with all keys equal the sort is the identity. -/
theorem sortByDesc_const {α : Type} (key : α → ℚ) (q : ℚ) (l : List α)
    (h : ∀ x ∈ l, key x = q) : sortByDesc key l = l := by
  induction l with
  | nil => rfl
  | cons a as ih =>
    have has : ∀ x ∈ as, key x = q := fun x hx => h x (by simp [hx])
    rw [sortByDesc, ih has]
    cases as with
    | nil => rfl
    | cons b bs =>
      have : ¬ key a < key b := by
        rw [h a (by simp), h b (by simp)]; exact lt_irrefl q
      simp [insertDesc, this]

/-! ## URL model

The crawler uses the JS `URL` class.  We model the fragment of its behaviour
the code exercises: parsing `scheme://host/path?query#fragment` URLs whose
components are already in canonical (lowercase, percent-encoded) form, the
`searchParams` key/value view and its serialization, `pathname`, `hostname`
(host without the port), `hash` clearing and `toString`.  `parseUrlL` fails
(`none`) exactly where `new URL(...)` would throw on this fragment. -/

structure Url where
  scheme : List Char
  host : List Char
  path : List Char
  params : List (List Char × List Char)
  frag : List Char
deriving Repr, DecidableEq

/-- Characters that end the host component. -/
def notDelim (c : Char) : Bool := c ≠ '/' ∧ c ≠ '?' ∧ c ≠ '#'

/-- Characters that may appear in a path. -/
def notQF (c : Char) : Bool := c ≠ '?' ∧ c ≠ '#'

/-- One `k=v` (or bare `k`) piece of a query string. -/
def parseParam (p : List Char) : List Char × List Char :=
  let k := p.takeWhile (· ≠ '=')
  match p.dropWhile (· ≠ '=') with
  | '=' :: v => (k, v)
  | _ => (k, [])

/-- `URLSearchParams` view of a raw query string (no leading `?`). -/
def parseQuery (q : List Char) : List (List Char × List Char) :=
  ((splitChar '&' q).filter (· ≠ [])).map parseParam

/-- Fragment after the first `#` of a query-and-fragment tail. -/
def fragOf (rest5 : List Char) : List Char :=
  match rest5.dropWhile (· ≠ '#') with
  | '#' :: f => f
  | _ => []

/-- Parse everything after `scheme://`. -/
def parseHostRest (scheme rest2 : List Char) : Option Url :=
  let host := rest2.takeWhile notDelim
  if host = [] then none else
  let rest3 := rest2.dropWhile notDelim
  let path := rest3.takeWhile notQF
  let path1 := if path = [] then ['/'] else path
  match rest3.dropWhile notQF with
  | '?' :: rest5 => some ⟨scheme, host, path1, parseQuery (rest5.takeWhile (· ≠ '#')), fragOf rest5⟩
  | '#' :: f => some ⟨scheme, host, path1, [], f⟩
  | _ => some ⟨scheme, host, path1, [], []⟩

/-- Parse a URL string; `none` models `new URL(...)` throwing. -/
def parseUrlL (l : List Char) : Option Url :=
  if l.takeWhile (· ≠ ':') = [] then none else
  match l.dropWhile (· ≠ ':') with
  | ':' :: '/' :: '/' :: rest2 => parseHostRest (l.takeWhile (· ≠ ':')) rest2
  | _ => none

/-- `URLSearchParams.toString`. -/
def serializeParams (ps : List (List Char × List Char)) : List Char :=
  joinSep '&' (ps.map (fun kv => kv.1 ++ '=' :: kv.2))

def queryStr (ps : List (List Char × List Char)) : List Char :=
  if ps = [] then [] else '?' :: serializeParams ps

def fragStr (f : List Char) : List Char :=
  if f = [] then [] else '#' :: f

/-- `URL.prototype.toString`. -/
def urlToStringL (u : Url) : List Char :=
  u.scheme ++ ':' :: '/' :: '/' :: (u.host ++ (u.path ++ (queryStr u.params ++ fragStr u.frag)))

/-- `URL.prototype.hostname`: the host without the `:port` suffix. -/
def hostnameOf (u : Url) : List Char := u.host.takeWhile (· ≠ ':')

/-- Well-formedness: exactly the canonical URLs our parser can re-read.
Parsing always produces a well-formed URL, and `urlToStringL` round-trips on
well-formed URLs. -/
def WFUrl (u : Url) : Prop :=
  u.scheme ≠ [] ∧ (∀ c ∈ u.scheme, c ≠ ':') ∧
  u.host ≠ [] ∧ (∀ c ∈ u.host, notDelim c) ∧
  u.path ≠ [] ∧ u.path.head? = some '/' ∧ (∀ c ∈ u.path, notQF c) ∧
  (∀ kv ∈ u.params,
    (∀ c ∈ kv.1, c ≠ '=' ∧ c ≠ '&' ∧ c ≠ '#') ∧ (∀ c ∈ kv.2, c ≠ '&' ∧ c ≠ '#'))

/-! ### Parse soundness -/

theorem head?_dropWhile_not (p : Char → Bool) (l : List Char) (c : Char)
    (h : (l.dropWhile p).head? = some c) : ¬ p c := by
  induction l with
  | nil => simp at h
  | cons a as ih =>
    by_cases hp : p a
    · rw [List.dropWhile_cons, if_pos hp] at h; exact ih h
    · rw [List.dropWhile_cons, if_neg hp] at h
      simp only [List.head?_cons, Option.some.injEq] at h
      subst h; exact hp

theorem mem_splitChar_no_sep (sep : Char) (l : List Char) :
    ∀ piece ∈ splitChar sep l, ∀ c ∈ piece, c ≠ sep := by
  induction l with
  | nil => intro piece hp c hc; simp [splitChar] at hp; subst hp; simp at hc
  | cons a as ih =>
    intro piece hp c hc
    by_cases ha : a = sep
    · subst ha
      rw [splitChar_cons_sep] at hp
      rcases List.mem_cons.mp hp with h0 | h1
      · subst h0; simp at hc
      · exact ih piece h1 c hc
    · rw [splitChar_cons_ne sep a as ha] at hp
      rcases List.mem_cons.mp hp with h0 | h1
      · subst h0
        rcases List.mem_cons.mp hc with h2 | h3
        · subst h2; exact ha
        · cases he : splitChar sep as with
          | nil => exact absurd he (splitChar_ne_nil sep as)
          | cons q qs =>
            refine ih q ?_ c ?_
            · rw [he]; simp
            · rwa [he] at h3
      · cases he : splitChar sep as with
        | nil => exact absurd he (splitChar_ne_nil sep as)
        | cons q qs =>
          refine ih piece ?_ c hc
          rw [he]; rw [he] at h1
          simp only [List.tail_cons] at h1
          exact List.mem_cons_of_mem q h1

theorem mem_splitChar_subset (sep : Char) (l : List Char) :
    ∀ piece ∈ splitChar sep l, ∀ c ∈ piece, c ∈ l := by
  induction l with
  | nil => intro piece hp c hc; simp [splitChar] at hp; subst hp; simp at hc
  | cons a as ih =>
    intro piece hp c hc
    by_cases ha : a = sep
    · subst ha
      rw [splitChar_cons_sep] at hp
      rcases List.mem_cons.mp hp with h0 | h1
      · subst h0; simp at hc
      · exact List.mem_cons_of_mem _ (ih piece h1 c hc)
    · rw [splitChar_cons_ne sep a as ha] at hp
      rcases List.mem_cons.mp hp with h0 | h1
      · subst h0
        rcases List.mem_cons.mp hc with h2 | h3
        · subst h2; simp
        · cases he : splitChar sep as with
          | nil => exact absurd he (splitChar_ne_nil sep as)
          | cons q qs =>
            refine List.mem_cons_of_mem _ (ih q ?_ c ?_)
            · rw [he]; simp
            · rwa [he] at h3
      · cases he : splitChar sep as with
        | nil => exact absurd he (splitChar_ne_nil sep as)
        | cons q qs =>
          refine List.mem_cons_of_mem _ (ih piece ?_ c hc)
          rw [he]; rw [he] at h1
          simp only [List.tail_cons] at h1
          exact List.mem_cons_of_mem q h1

theorem mem_takeWhile_sat (p : Char → Bool) (l : List Char) :
    ∀ c ∈ l.takeWhile p, p c := by
  induction l with
  | nil => simp
  | cons a as ih =>
    intro c hc
    by_cases hp : p a
    · rw [List.takeWhile_cons, if_pos hp] at hc
      rcases List.mem_cons.mp hc with h0 | h1
      · subst h0; exact hp
      · exact ih c h1

    · rw [List.takeWhile_cons, if_neg hp] at hc; simp at hc

theorem mem_takeWhile_mem (p : Char → Bool) (l : List Char) :
    ∀ c ∈ l.takeWhile p, c ∈ l :=
  fun _ hc => (List.takeWhile_prefix p).subset hc

theorem mem_dropWhile_mem (p : Char → Bool) (l : List Char) :
    ∀ c ∈ l.dropWhile p, c ∈ l :=
  fun _ hc => (List.dropWhile_suffix p).subset hc

theorem head?_takeWhile (p : Char → Bool) (l : List Char)
    (h : l.takeWhile p ≠ []) : (l.takeWhile p).head? = l.head? := by
  cases l with
  | nil => simp at h
  | cons a as =>
    by_cases hp : p a
    · rw [List.takeWhile_cons, if_pos hp]; simp
    · rw [List.takeWhile_cons, if_neg hp] at h; exact absurd rfl h

theorem parseParam_fst (p : List Char) :
    (parseParam p).1 = p.takeWhile (· ≠ '=') := by
  simp only [parseParam]; split <;> rfl

theorem parseParam_snd (p : List Char) :
    (parseParam p).2 = [] ∨
      ∃ v, p.dropWhile (· ≠ '=') = '=' :: v ∧ (parseParam p).2 = v := by
  simp only [parseParam]; split
  · rename_i v heq; right; exact ⟨v, heq, rfl⟩
  · left; rfl

/-- Every key/value pair read off a `#`-free query string is well-formed. -/
theorem parseQuery_wf (q : List Char) (hq : ∀ c ∈ q, c ≠ '#') :
    ∀ kv ∈ parseQuery q,
      (∀ c ∈ kv.1, c ≠ '=' ∧ c ≠ '&' ∧ c ≠ '#') ∧ (∀ c ∈ kv.2, c ≠ '&' ∧ c ≠ '#') := by
  intro kv hkv
  simp only [parseQuery, List.mem_map, List.mem_filter] at hkv
  obtain ⟨piece, ⟨hpiece, -⟩, hkv⟩ := hkv
  have hamp : ∀ c ∈ piece, c ≠ '&' := mem_splitChar_no_sep '&' q piece hpiece
  have hsub : ∀ c ∈ piece, c ∈ q := mem_splitChar_subset '&' q piece hpiece
  subst hkv
  constructor
  · intro c hc
    rw [parseParam_fst] at hc
    have hmem : c ∈ piece := mem_takeWhile_mem _ piece c hc
    have heq : c ≠ '=' := by
      have := mem_takeWhile_sat _ piece c hc
      simpa using this
    exact ⟨heq, hamp c hmem, hq c (hsub c hmem)⟩
  · intro c hc
    rcases parseParam_snd piece with hnil | ⟨v, hdrop, hv⟩
    · rw [hnil] at hc; simp at hc
    · rw [hv] at hc
      have hd : c ∈ piece.dropWhile (· ≠ '=') := by
        rw [hdrop]; exact List.mem_cons_of_mem _ hc
      have hmem : c ∈ piece := mem_dropWhile_mem _ piece c hd
      exact ⟨hamp c hmem, hq c (hsub c hmem)⟩

/-- Parsing only ever produces well-formed URLs. -/
theorem parseUrlL_wf (l : List Char) (u : Url) (h : parseUrlL l = some u) :
    WFUrl u := by
  simp only [parseUrlL] at h
  split at h
  · exact absurd h (by simp)
  · rename_i hscheme
    split at h
    · rename_i rest2 heq
      simp only [parseHostRest] at h
      split at h
      · exact absurd h (by simp)
      · rename_i hhost
        have hsch1 : l.takeWhile (· ≠ ':') ≠ [] := hscheme
        have hschc : ∀ c ∈ l.takeWhile (· ≠ ':'), c ≠ ':' := by
          intro c hc
          simpa using mem_takeWhile_sat _ l c hc
        have hhostc : ∀ c ∈ rest2.takeWhile notDelim, notDelim c :=
          fun c hc => mem_takeWhile_sat _ rest2 c hc
        -- facts about the path component
        set path1 : List Char :=
          (if (rest2.dropWhile notDelim).takeWhile notQF = [] then ['/']
            else (rest2.dropWhile notDelim).takeWhile notQF) with hpathdef
        have hpath1 : path1 ≠ [] ∧ path1.head? = some '/' ∧ (∀ c ∈ path1, notQF c) := by
          by_cases hp : (rest2.dropWhile notDelim).takeWhile notQF = []
          · rw [hpathdef, if_pos hp]
            refine ⟨by simp, by simp, ?_⟩
            intro c hc
            simp only [List.mem_singleton] at hc
            subst hc
            simp [notQF]
          · rw [hpathdef, if_neg hp]
            refine ⟨hp, ?_, fun c hc => mem_takeWhile_sat _ _ c hc⟩
            rw [head?_takeWhile _ _ hp]
            rcases hh : (rest2.dropWhile notDelim).head? with - | c
            · rw [List.head?_eq_none_iff] at hh
              rw [hh] at hp
              simp at hp
            · have hnd : ¬ notDelim c := head?_dropWhile_not notDelim rest2 c hh
              have hqf : notQF c := by
                have hc0 : c ∈ (rest2.dropWhile notDelim).takeWhile notQF := by
                  cases hx : (rest2.dropWhile notDelim).takeWhile notQF with
                  | nil => exact absurd hx hp
                  | cons y ys =>
                    have hyc : y = c := by
                      have := head?_takeWhile notQF (rest2.dropWhile notDelim) (by rw [hx]; simp)
                      rw [hx, hh] at this
                      simpa using this
                    subst hyc
                    simp
                exact mem_takeWhile_sat _ _ c hc0
              have hc2 : c = '/' := by
                simp only [notDelim] at hnd
                simp only [notQF] at hqf
                simp only [Bool.decide_and, Bool.and_eq_true, decide_eq_true_eq] at hnd hqf
                by_contra hne
                exact hnd (by simp [hne, hqf.1, hqf.2])
              rw [hc2]
        obtain ⟨h1, h2, h3⟩ := hpath1
        split at h
        · rename_i rest5 hdrop
          rw [Option.some_inj] at h
          subst h
          refine ⟨hsch1, hschc, hhost, hhostc, h1, h2, h3, ?_⟩
          exact parseQuery_wf _ (fun c hc => by simpa using mem_takeWhile_sat _ rest5 c hc)
        · rename_i f hdrop
          rw [Option.some_inj] at h
          subst h
          exact ⟨hsch1, hschc, hhost, hhostc, h1, h2, h3, by simp⟩
        · rw [Option.some_inj] at h
          subst h
          exact ⟨hsch1, hschc, hhost, hhostc, h1, h2, h3, by simp⟩
    · exact absurd h (by simp)

/-! ### Serialization round-trip -/

theorem takeWhile_all (p : Char → Bool) (l : List Char) (h : ∀ x ∈ l, p x) :
    l.takeWhile p = l := by
  induction l with
  | nil => rfl
  | cons a as ih =>
    rw [List.takeWhile_cons, if_pos (h a (by simp)), ih (fun x hx => h x (by simp [hx]))]

theorem dropWhile_all (p : Char → Bool) (l : List Char) (h : ∀ x ∈ l, p x) :
    l.dropWhile p = [] := by
  induction l with
  | nil => rfl
  | cons a as ih =>
    rw [List.dropWhile_cons, if_pos (h a (by simp))]
    exact ih (fun x hx => h x (by simp [hx]))

theorem map_self_of_mem {α : Type} (f : α → α) (l : List α)
    (h : ∀ x ∈ l, f x = x) : l.map f = l := by
  induction l with
  | nil => rfl
  | cons a as ih => simp [h a (by simp), ih (fun x hx => h x (by simp [hx]))]

theorem parseParam_pair (k v : List Char) (hk : ∀ c ∈ k, c ≠ '=') :
    parseParam (k ++ '=' :: v) = (k, v) := by
  simp only [parseParam]
  rw [dropWhile_append_all _ k _ (by intro x hx; simpa using hk x hx),
    dropWhile_cons_neg _ '=' v (by simp)]
  simp only
  rw [takeWhile_append_all _ k _ (by intro x hx; simpa using hk x hx),
    takeWhile_cons_neg _ '=' v (by simp)]
  simp

theorem parseQuery_serializeParams (ps : List (List Char × List Char))
    (hne : ps ≠ [])
    (hwf : ∀ kv ∈ ps, (∀ c ∈ kv.1, c ≠ '=' ∧ c ≠ '&') ∧ (∀ c ∈ kv.2, c ≠ '&')) :
    parseQuery (serializeParams ps) = ps := by
  unfold parseQuery serializeParams
  rw [splitChar_joinSep '&' _ (by simpa using hne) ?pieces]
  · rw [List.filter_eq_self.mpr ?nonnil]
    · rw [List.map_map]
      refine map_self_of_mem _ ps ?_
      intro kv hkv
      simpa using parseParam_pair kv.1 kv.2 (fun c hc => ((hwf kv hkv).1 c hc).1)
    case nonnil =>
      intro p hp
      simp only [List.mem_map] at hp
      obtain ⟨kv, hkv, rfl⟩ := hp
      simp
  case pieces =>
    intro p hp c hc
    simp only [List.mem_map] at hp
    obtain ⟨kv, hkv, rfl⟩ := hp
    rcases List.mem_append.mp hc with h1 | h2
    · exact ((hwf kv hkv).1 c h1).2
    · rcases List.mem_cons.mp h2 with h3 | h4
      · subst h3; decide
      · exact (hwf kv hkv).2 c h4

theorem fragStr_nil : fragStr [] = [] := rfl

theorem fragStr_cons (c : Char) (f : List Char) :
    fragStr (c :: f) = '#' :: c :: f := rfl

theorem queryStr_nil : queryStr [] = [] := rfl

theorem queryStr_cons (kv : List Char × List Char)
    (rest : List (List Char × List Char)) :
    queryStr (kv :: rest) = '?' :: serializeParams (kv :: rest) := rfl

/-- No `#` occurs in the serialization of well-formed parameters. -/
theorem serializeParams_no_hash (l : List (List Char × List Char))
    (hl : ∀ x ∈ l, (∀ a ∈ x.1, a ≠ '#') ∧ ∀ a ∈ x.2, a ≠ '#') :
    ∀ c ∈ serializeParams l, c ≠ '#' := by
  induction l with
  | nil => intro c hc; simp [serializeParams, joinSep] at hc
  | cons a as ih =>
    intro c hc
    have hih := ih (fun x hx => hl x (List.mem_cons_of_mem a hx))
    have hla := hl a (by simp)
    cases as with
    | nil =>
      simp only [serializeParams, List.map_cons, List.map_nil, joinSep] at hc
      rcases List.mem_append.mp hc with h1 | h2
      · exact hla.1 c h1
      · rcases List.mem_cons.mp h2 with h3 | h4
        · subst h3; decide
        · exact hla.2 c h4
    | cons b bs =>
      have hjo : serializeParams (a :: b :: bs) =
          (a.1 ++ '=' :: a.2) ++ '&' :: serializeParams (b :: bs) := rfl
      rw [hjo] at hc
      rcases List.mem_append.mp hc with h1 | h2
      · rcases List.mem_append.mp h1 with ha | hb
        · exact hla.1 c ha
        · rcases List.mem_cons.mp hb with h3 | h4
          · subst h3; decide
          · exact hla.2 c h4
      · rcases List.mem_cons.mp h2 with h3 | h4
        · subst h3; decide
        · exact hih c h4

/-- The query-and-fragment tail starts with `?`, `#` or is empty, so no path
characters are read from it. -/
theorem qf_takeWhile (params : List (List Char × List Char)) (frag : List Char) :
    (queryStr params ++ fragStr frag).takeWhile notQF = [] := by
  cases params <;> cases frag <;> rfl

theorem qf_dropWhile (params : List (List Char × List Char)) (frag : List Char) :
    (queryStr params ++ fragStr frag).dropWhile notQF = queryStr params ++ fragStr frag := by
  cases params <;> cases frag <;> rfl

/-- Serializing a well-formed URL and re-parsing gives the URL back. -/
theorem parseUrlL_urlToStringL (u : Url) (h : WFUrl u) :
    parseUrlL (urlToStringL u) = some u := by
  obtain ⟨scheme, host, path, params, frag⟩ := u
  obtain ⟨hs, hsc, hh, hhd, hp, hph, hpq, hparams⟩ := h
  simp only at hs hsc hh hhd hp hph hpq hparams
  obtain ⟨ptail, hpath⟩ : ∃ t, path = '/' :: t := by
    cases hx : path with
    | nil => exact absurd hx hp
    | cons a t =>
      rw [hx] at hph
      simp only [List.head?_cons, Option.some.injEq] at hph
      exact ⟨t, by rw [hph]⟩
  subst hpath
  have htake : (urlToStringL ⟨scheme, host, '/' :: ptail, params, frag⟩).takeWhile (· ≠ ':') = scheme := by
    unfold urlToStringL
    rw [takeWhile_append_all _ _ _ (by intro x hx; simpa using hsc x hx),
      takeWhile_cons_neg _ ':' _ (by simp)]
    simp
  have hdrop : (urlToStringL ⟨scheme, host, '/' :: ptail, params, frag⟩).dropWhile (· ≠ ':') =
      ':' :: '/' :: '/' :: (host ++ ('/' :: ptail ++ (queryStr params ++ fragStr frag))) := by
    unfold urlToStringL
    rw [dropWhile_append_all _ _ _ (by intro x hx; simpa using hsc x hx),
      dropWhile_cons_neg _ ':' _ (by simp)]
  rw [parseUrlL.eq_def, htake, hdrop, if_neg hs]
  show parseHostRest scheme (host ++ ('/' :: ptail ++ (queryStr params ++ fragStr frag))) = some _
  have htakeh : (host ++ ('/' :: ptail ++ (queryStr params ++ fragStr frag))).takeWhile notDelim = host := by
    rw [takeWhile_append_all _ _ _ hhd, List.cons_append,
      takeWhile_cons_neg _ '/' _ (by simp [notDelim])]
    simp
  have hdroph : (host ++ ('/' :: ptail ++ (queryStr params ++ fragStr frag))).dropWhile notDelim =
      ('/' :: ptail) ++ (queryStr params ++ fragStr frag) := by
    rw [dropWhile_append_all _ _ _ hhd, List.cons_append,
      dropWhile_cons_neg _ '/' _ (by simp [notDelim])]
  have htakep : (('/' :: ptail) ++ (queryStr params ++ fragStr frag)).takeWhile notQF = '/' :: ptail := by
    rw [takeWhile_append_all _ _ _ hpq, qf_takeWhile]
    simp
  have hdropp : (('/' :: ptail) ++ (queryStr params ++ fragStr frag)).dropWhile notQF =
      queryStr params ++ fragStr frag := by
    rw [dropWhile_append_all _ _ _ hpq, qf_dropWhile]
  simp only [parseHostRest.eq_def]
  rw [htakeh, hdroph, if_neg hh, htakep, hdropp, if_neg (by simp)]
  -- case split on the query/fragment tail
  cases params with
  | nil =>
    cases frag with
    | nil => rfl
    | cons c f => rfl
  | cons kv rest =>
    rw [queryStr_cons, List.cons_append]
    have hnohash : ∀ c ∈ serializeParams (kv :: rest), (c ≠ '#' : Prop) := by
      refine serializeParams_no_hash _ ?_
      intro x hx
      have hw := hparams x hx
      exact ⟨fun a ha => (hw.1 a ha).2.2, fun a ha => (hw.2 a ha).2⟩
    have htakeq : (serializeParams (kv :: rest) ++ fragStr frag).takeWhile (fun x => decide (x ≠ '#')) =
        serializeParams (kv :: rest) := by
      cases frag with
      | nil =>
        rw [fragStr_nil, List.append_nil]
        exact takeWhile_all _ _ (by intro x hx; simpa using hnohash x hx)
      | cons c f =>
        rw [fragStr_cons]
        rw [takeWhile_append_all _ _ _ (by intro x hx; simpa using hnohash x hx),
          takeWhile_cons_neg _ '#' _ (by simp)]
        simp
    have hfragq : fragOf (serializeParams (kv :: rest) ++ fragStr frag) = frag := by
      unfold fragOf
      cases frag with
      | nil =>
        rw [fragStr_nil, List.append_nil]
        rw [dropWhile_all _ _ (by intro x hx; simpa using hnohash x hx)]
      | cons c f =>
        rw [fragStr_cons]
        rw [dropWhile_append_all _ _ _ (by intro x hx; simpa using hnohash x hx),
          dropWhile_cons_neg _ '#' _ (by simp)]
        rfl
    show some (⟨scheme, host, '/' :: ptail,
        parseQuery ((serializeParams (kv :: rest) ++ fragStr frag).takeWhile (fun x => decide (x ≠ '#'))),
        fragOf (serializeParams (kv :: rest) ++ fragStr frag)⟩ : Url) =
      some ⟨scheme, host, '/' :: ptail, kv :: rest, frag⟩
    rw [htakeq, hfragq]
    rw [parseQuery_serializeParams (kv :: rest) (by simp) (by
      intro x hx
      have hw := hparams x hx
      exact ⟨fun c hc => ⟨(hw.1 c hc).1, (hw.1 c hc).2.1⟩, fun c hc => (hw.2 c hc).1⟩)]

/-! ## URL normalization (crawler.ts `normalizeUrl`)

The source parses the URL, clears the fragment, deletes the five known
tracking query parameters, serializes, and strips one trailing slash unless
the parsed pathname is the bare root `/`; unparseable input is returned
unchanged (the `catch` branch). -/

def trackingKeys : List (List Char) :=
  ["utm_source".data, "utm_medium".data, "utm_campaign".data, "fbclid".data, "gclid".data]

/-- The mutations `normalizeUrl` applies to the parsed URL object:
`parsed.hash = ""` and `parsed.searchParams.delete(...)` for each tracking key. -/
def scrub (u : Url) : Url :=
  { u with params := u.params.filter (fun kv => !(trackingKeys.contains kv.1)),
           frag := [] }

def normalizeList (l : List Char) : List Char :=
  match parseUrlL l with
  | none => l
  | some u =>
    let n := urlToStringL (scrub u)
    if n.getLast? = some '/' ∧ u.path ≠ ['/'] then n.dropLast else n

/-- `normalizeUrl` from crawler.ts. -/
def normalizeUrl (s : String) : String := ⟨normalizeList s.data⟩

/-- The serialized, scrubbed URL ends in two slashes — the shape on which a
single trailing-slash strip is not idempotent. -/
def ends2 (l : List Char) : Bool :=
  decide (l.getLast? = some '/') && decide (l.dropLast.getLast? = some '/')

/-- Input whose normalization a second pass provably fixes: either it does not
parse, or its scrubbed serialization does not end in `//`. -/
def normIdemOK (s : String) : Bool :=
  match parseUrlL s.data with
  | none => true
  | some u => ! ends2 (urlToStringL (scrub u))

theorem scrub_path (u : Url) : (scrub u).path = u.path := rfl

theorem scrub_scrub (u : Url) : scrub (scrub u) = scrub u := by
  cases u
  simp only [scrub, Url.mk.injEq, and_true, true_and]
  exact List.filter_eq_self.mpr (fun a ha => (List.mem_filter.mp ha).2)

theorem scrub_wf (u : Url) (h : WFUrl u) : WFUrl (scrub u) := by
  obtain ⟨hs, hsc, hh, hhd, hp, hph, hpq, hparams⟩ := h
  refine ⟨hs, hsc, hh, hhd, hp, hph, hpq, ?_⟩
  intro kv hkv
  exact hparams kv (List.mem_of_mem_filter hkv)

theorem dropLast_append_right (a b : List Char) (hb : b ≠ []) :
    (a ++ b).dropLast = a ++ b.dropLast := by
  induction a with
  | nil => rfl
  | cons x xs ih =>
    rw [List.cons_append]
    cases hxb : xs ++ b with
    | nil => exact absurd (List.append_eq_nil.mp hxb).2 hb
    | cons y ys =>
      rw [List.dropLast_cons₂, ← hxb, ih, List.cons_append]

theorem serializeParams_ne_nil (ps : List (List Char × List Char)) (hps : ps ≠ []) :
    serializeParams ps ≠ [] := by
  cases ps with
  | nil => exact absurd rfl hps
  | cons kv rest =>
    cases rest with
    | nil =>
      show kv.1 ++ '=' :: kv.2 ≠ []
      simp
    | cons b bs =>
      show (kv.1 ++ '=' :: kv.2) ++ '&' :: serializeParams (b :: bs) ≠ []
      simp

/-- JS has no such helper; this models rewriting the last parameter's value. -/
def mapLast {α : Type} (f : α → α) : List α → List α
  | [] => []
  | [a] => [f a]
  | a :: b :: as => a :: mapLast f (b :: as)

theorem mapLast_mem {α : Type} (f : α → α) (l : List α) :
    ∀ x ∈ mapLast f l, x ∈ l ∨ ∃ y ∈ l, x = f y := by
  induction l with
  | nil => simp [mapLast]
  | cons a as ih =>
    intro x hx
    cases as with
    | nil =>
      simp only [mapLast, List.mem_singleton] at hx
      exact Or.inr ⟨a, by simp, hx⟩
    | cons b bs =>
      simp only [mapLast] at hx
      rcases List.mem_cons.mp hx with h1 | h2
      · exact Or.inl (by simp [h1])
      · rcases ih x h2 with h3 | ⟨y, hy, hxy⟩
        · exact Or.inl (List.mem_cons_of_mem a h3)
        · exact Or.inr ⟨y, List.mem_cons_of_mem a hy, hxy⟩

theorem mapLast_cons_shape {α : Type} (f : α → α) (b : α) (bs : List α) :
    ∃ y ys, mapLast f (b :: bs) = y :: ys := by
  cases bs with
  | nil => exact ⟨f b, [], rfl⟩
  | cons c cs => exact ⟨b, mapLast f (c :: cs), rfl⟩

/-- Dropping the final character of a serialized query whose last character is
a slash shortens the last parameter's value. -/
theorem serializeParams_strip (ps : List (List Char × List Char)) (hps : ps ≠ [])
    (hlast : (serializeParams ps).getLast? = some '/') :
    serializeParams (mapLast (fun kv => (kv.1, kv.2.dropLast)) ps) =
      (serializeParams ps).dropLast := by
  induction ps with
  | nil => exact absurd rfl hps
  | cons kv rest ih =>
    cases rest with
    | nil =>
      obtain ⟨k, v⟩ := kv
      have hserial : serializeParams [(k, v)] = k ++ '=' :: v := rfl
      rw [hserial] at hlast
      have hv : v ≠ [] := by
        intro hnil; subst hnil
        rw [List.getLast?_append_of_ne_nil k (by simp)] at hlast
        simp at hlast
      show serializeParams [(k, v.dropLast)] = (k ++ '=' :: v).dropLast
      rw [show serializeParams [(k, v.dropLast)] = k ++ '=' :: v.dropLast from rfl,
        dropLast_append_right _ _ (by simp)]
      cases v with
      | nil => exact absurd rfl hv
      | cons c vs => rfl
    | cons b bs =>
      obtain ⟨y, ys, hshape⟩ := mapLast_cons_shape (fun kv => (kv.1, kv.2.dropLast)) b bs
      have hserial : serializeParams (kv :: b :: bs) =
          (kv.1 ++ '=' :: kv.2) ++ '&' :: serializeParams (b :: bs) := rfl
      have hSne : serializeParams (b :: bs) ≠ [] := serializeParams_ne_nil _ (by simp)
      have hlast' : (serializeParams (b :: bs)).getLast? = some '/' := by
        rw [hserial, List.getLast?_append_of_ne_nil _ (by simp),
          show ('&' :: serializeParams (b :: bs)) = ['&'] ++ serializeParams (b :: bs) from rfl,
          List.getLast?_append_of_ne_nil _ hSne] at hlast
        exact hlast
      have hmap : mapLast (fun kv => (kv.1, kv.2.dropLast)) (kv :: b :: bs) =
          kv :: mapLast (fun kv => (kv.1, kv.2.dropLast)) (b :: bs) := rfl
      rw [hmap, hshape,
        show serializeParams (kv :: y :: ys) = (kv.1 ++ '=' :: kv.2) ++ '&' :: serializeParams (y :: ys) from rfl,
        ← hshape, ih (by simp) hlast', hserial,
        dropLast_append_right _ _ (by simp)]
      congr 1
      cases hS : serializeParams (b :: bs) with
      | nil => exact absurd hS hSne
      | cons c cs => rfl

theorem urlToStringL_no_qf (scheme host path : List Char) :
    urlToStringL ⟨scheme, host, path, [], []⟩ =
      (scheme ++ ':' :: '/' :: '/' :: host) ++ path := by
  simp [urlToStringL, queryStr, fragStr]

theorem urlToStringL_with_q (scheme host path : List Char)
    (kv : List Char × List Char) (rest : List (List Char × List Char)) :
    urlToStringL ⟨scheme, host, path, kv :: rest, []⟩ =
      ((scheme ++ ':' :: '/' :: '/' :: host) ++ path) ++ '?' :: serializeParams (kv :: rest) := by
  rw [urlToStringL, queryStr_cons, fragStr_nil]
  simp

/-- After stripping the trailing slash of a scrubbed serialized URL, the
result is again the serialization of a well-formed, scrub-fixed URL. -/
theorem strip_shape (u' : Url) (hwf : WFUrl u') (hfrag : u'.frag = [])
    (hfix : scrub u' = u') (hroot : u'.path ≠ ['/'])
    (hlast : (urlToStringL u').getLast? = some '/') :
    ∃ u'', WFUrl u'' ∧ scrub u'' = u'' ∧
      urlToStringL u'' = (urlToStringL u').dropLast := by
  obtain ⟨scheme, host, path, params, frag⟩ := u'
  simp only at hfrag hroot
  subst hfrag
  obtain ⟨hs, hsc, hh, hhd, hp, hph, hpq, hparams⟩ := hwf
  cases params with
  | nil =>
    -- the trailing slash of the serialization is the last path character
    rw [urlToStringL_no_qf] at hlast
    have hplast : path.getLast? = some '/' := by
      rw [List.getLast?_append_of_ne_nil _ hp] at hlast; exact hlast
    obtain ⟨t, hpath⟩ : ∃ t, path = '/' :: t := by
      cases hx : path with
      | nil => exact absurd hx hp
      | cons a t =>
        rw [hx] at hph
        simp only [List.head?_cons, Option.some.injEq] at hph
        exact ⟨t, by rw [hph]⟩
    have ht : t ≠ [] := by
      intro h0
      subst h0
      exact hroot hpath
    obtain ⟨c, cs, hct⟩ : ∃ c cs, t = c :: cs := by
      cases t with
      | nil => exact absurd rfl ht
      | cons c cs => exact ⟨c, cs, rfl⟩
    refine ⟨⟨scheme, host, path.dropLast, [], []⟩, ?_, rfl, ?_⟩
    · refine ⟨hs, hsc, hh, hhd, ?_, ?_, ?_, by simp⟩
      · rw [hpath, hct, List.dropLast_cons₂]; simp
      · rw [hpath, hct, List.dropLast_cons₂]; simp
      · intro x hx
        exact hpq x (List.mem_of_mem_dropLast hx)
    · rw [urlToStringL_no_qf, urlToStringL_no_qf, dropLast_append_right _ _ hp]
  | cons kv rest =>
    -- the trailing slash ends the last query parameter's value
    rw [urlToStringL_with_q] at hlast
    have hSne := serializeParams_ne_nil (kv :: rest) (by simp)
    have hqlast : (serializeParams (kv :: rest)).getLast? = some '/' := by
      rw [List.getLast?_append_of_ne_nil _ (by simp),
        show ('?' :: serializeParams (kv :: rest)) = ['?'] ++ serializeParams (kv :: rest) from rfl,
        List.getLast?_append_of_ne_nil _ hSne] at hlast
      exact hlast
    obtain ⟨y, ys, hshape⟩ := mapLast_cons_shape (fun kv => (kv.1, kv.2.dropLast)) kv rest
    have hpar : (List.filter (fun kv => !(trackingKeys.contains kv.1)) (kv :: rest)) = kv :: rest :=
      congrArg Url.params hfix
    have hkeys := List.filter_eq_self.mp hpar
    refine ⟨⟨scheme, host, path, mapLast (fun kv => (kv.1, kv.2.dropLast)) (kv :: rest), []⟩, ?_, ?_, ?_⟩
    · refine ⟨hs, hsc, hh, hhd, hp, hph, hpq, ?_⟩
      intro x hx
      rcases mapLast_mem _ _ x hx with h1 | ⟨z, hz, hxz⟩
      · exact hparams x h1
      · have hzw := hparams z hz
        subst hxz
        exact ⟨hzw.1, fun c hc => hzw.2 c (List.mem_of_mem_dropLast hc)⟩
    · show scrub _ = _
      simp only [scrub, Url.mk.injEq, and_true, true_and]
      refine List.filter_eq_self.mpr ?_
      intro x hx
      rcases mapLast_mem _ _ x hx with h1 | ⟨z, hz, hxz⟩
      · exact hkeys x h1
      · subst hxz
        exact hkeys z hz
    · rw [hshape, urlToStringL_with_q, ← hshape,
        serializeParams_strip (kv :: rest) (by simp) hqlast,
        urlToStringL_with_q, dropLast_append_right _ _ (by simp)]
      congr 1
      cases hS : serializeParams (kv :: rest) with
      | nil => exact absurd hS hSne
      | cons c cs => rfl

/-- One normalization pass at the character-list level, written as an
equation usable for rewriting. -/
theorem normalizeList_some (l : List Char) (u : Url) (hp : parseUrlL l = some u) :
    normalizeList l =
      (if (urlToStringL (scrub u)).getLast? = some '/' ∧ u.path ≠ ['/']
        then (urlToStringL (scrub u)).dropLast else urlToStringL (scrub u)) := by
  simp only [normalizeList, hp]

/-- Idempotence of normalization, conditional on the scrubbed serialization
not ending in a double slash. -/
theorem normalizeList_idem (l : List Char)
    (h : ∀ u, parseUrlL l = some u → ends2 (urlToStringL (scrub u)) = false) :
    normalizeList (normalizeList l) = normalizeList l := by
  cases hp : parseUrlL l with
  | none => simp [normalizeList, hp]
  | some u =>
    have hwf := parseUrlL_wf l u hp
    have hwf' : WFUrl (scrub u) := scrub_wf u hwf
    have hrt : parseUrlL (urlToStringL (scrub u)) = some (scrub u) :=
      parseUrlL_urlToStringL _ hwf'
    have hfix : scrub (scrub u) = scrub u := scrub_scrub u
    by_cases hcond : (urlToStringL (scrub u)).getLast? = some '/' ∧ u.path ≠ ['/']
    · -- the trailing slash was stripped
      have h2 : ends2 (urlToStringL (scrub u)) = false := h u hp
      have h2' : ¬ ((urlToStringL (scrub u)).dropLast.getLast? = some '/') := by
        intro hcontra
        rw [ends2, hcond.1, hcontra] at h2
        simp at h2
      obtain ⟨u'', hwf'', hfix'', htos⟩ :=
        strip_shape (scrub u) hwf' rfl hfix (by exact hcond.2) hcond.1
      have h1 : normalizeList l = (urlToStringL (scrub u)).dropLast := by
        rw [normalizeList_some l u hp, if_pos hcond]
      rw [h1]
      have hrt'' : parseUrlL ((urlToStringL (scrub u)).dropLast) = some u'' := by
        rw [← htos]
        exact parseUrlL_urlToStringL u'' hwf''
      rw [normalizeList_some _ u'' hrt'', hfix'', htos]
      rw [if_neg (fun hc => h2' hc.1)]
    · -- nothing stripped: the serialization is already a fixed point
      have h1 : normalizeList l = urlToStringL (scrub u) := by
        rw [normalizeList_some l u hp, if_neg hcond]
      rw [h1, normalizeList_some _ (scrub u) hrt, hfix]
      rw [if_neg (by exact hcond)]

/-! ## robots.txt (crawler.ts `getRobotsInfo`) and `isUrlAllowed`

The network fetch is abstracted: the HTTP response body is an explicit
`Option String` (`none` models fetch failure or a non-2xx status, both of
which the source maps to an empty rule set — fail-open). -/

structure RobotsInfo where
  crawlDelay : Option Nat
  disallowed : List String
deriving Repr, DecidableEq

/-- ASCII `String.prototype.toLowerCase`. -/
def toLowerChar (c : Char) : Char :=
  if 'A' ≤ c ∧ c ≤ 'Z' then Char.ofNat (c.toNat + 32) else c

def toLowerL (l : List Char) : List Char := l.map toLowerChar

/-- JS `String.prototype.trim` (ASCII whitespace). -/
def trimL (l : List Char) : List Char :=
  ((l.dropWhile isWs).reverse.dropWhile isWs).reverse

/-- JS `parseInt` on an already-trimmed string: leading decimal digits, `NaN`
(`none`) when there are none. -/
def parseIntJS (l : List Char) : Option Nat :=
  let ds := l.takeWhile Char.isDigit
  if ds = [] then none
  else some (ds.foldl (fun n c => n * 10 + (c.toNat - '0'.toNat)) 0)

/-- Models `trimmed.replace(prefix, "")` when `trimmed` starts with `prefix`. -/
def stripPrefixL (pre l : List Char) : List Char := l.drop pre.length

/-- The line loop of `getRobotsInfo`: tracks whether we are inside the
`User-agent: *` block, the latest crawl delay (already in ms) and the
collected disallow prefixes. -/
def robotsLoop : List (List Char) → Bool → Option Nat → List (List Char) →
    Option Nat × List (List Char)
  | [], _, delay, dis => (delay, dis)
  | line :: rest, inAll, delay, dis =>
    let trimmed := toLowerL (trimL line)
    if ("user-agent:".data).isPrefixOf trimmed then
      robotsLoop rest (trimL (stripPrefixL ("user-agent:".data) trimmed) = "*".data) delay dis
    else if inAll then
      if ("crawl-delay:".data).isPrefixOf trimmed then
        match parseIntJS (trimL (stripPrefixL ("crawl-delay:".data) trimmed)) with
        | some d => robotsLoop rest inAll (some (d * 1000)) dis
        | none => robotsLoop rest inAll delay dis
      else if ("disallow:".data).isPrefixOf trimmed then
        let path := trimL (stripPrefixL ("disallow:".data) trimmed)
        if path = [] then robotsLoop rest inAll delay dis
        else robotsLoop rest inAll delay (dis ++ [path])
      else robotsLoop rest inAll delay dis
    else robotsLoop rest inAll delay dis

def parseRobots (text : String) : RobotsInfo :=
  let r := robotsLoop (splitChar '\n' text.data) false none []
  ⟨r.1, r.2.map (fun l => (⟨l⟩ : String))⟩

/-- `getRobotsInfo`, network response passed explicitly. -/
def getRobotsInfo (response : Option String) : RobotsInfo :=
  match response with
  | none => ⟨none, []⟩
  | some text => parseRobots text

/-- JS `v || d` on an optional number (`0` and `undefined` are falsy). -/
def jsOr (v : Option Nat) (d : Nat) : Nat :=
  match v with
  | some n => if n = 0 then d else n
  | none => d

/-- The crawl-delay floor applied by `scrape` (scraper/index.ts lines 79–82):
`cfg.requestDelayMs = Math.max(cfg.requestDelayMs || 1000, robotsInfo.crawlDelay)`
executed only when `robotsInfo.crawlDelay` is truthy. -/
def effectiveRequestDelay (configured : Option Nat) (robots : RobotsInfo) : Option Nat :=
  match robots.crawlDelay with
  | some d => if d ≠ 0 then some (max (jsOr configured 1000) d) else configured
  | none => configured

/-- `isUrlAllowed` from crawler.ts: unparseable URLs are blocked (the `catch`
returns `false`), an exact `/` rule blocks everything, and any rule that
prefixes the pathname blocks the URL. -/
def isUrlAllowed (url : String) (disallowed : List String) : Bool :=
  match parseUrlL url.data with
  | none => false
  | some u =>
    disallowed.all (fun rule => !(rule = "/") && !(rule.data.isPrefixOf u.path))

/-! ## Link ranker (ranker.ts) -/

inductive LinkCategory where
  | budget | finance | procurement | contact | meeting
  | policy | project | department | document | other
deriving Repr, DecidableEq

structure ExtractedLink where
  url : String
  anchorText : String
  context : String
deriving Repr, DecidableEq

structure RankedLink where
  url : String
  anchorText : String
  context : String
  relevanceScore : ℚ
  category : LinkCategory
  rationale : String
deriving Repr, DecidableEq

/-- JS spread `{...link, relevanceScore, category, rationale}`. -/
def mkRanked (link : ExtractedLink) (score : ℚ) (category : LinkCategory)
    (rationale : String) : RankedLink :=
  ⟨link.url, link.anchorText, link.context, score, category, rationale⟩

structure RankerConfig where
  priorityKeywords : List String
  minRelevanceScore : ℚ
  batchSize : Nat
deriving Repr, DecidableEq

def DEFAULT_RANKER_CONFIG : RankerConfig :=
  ⟨["ACFR", "Annual Comprehensive Financial Report", "Budget", "Finance",
    "Finance Director", "CFO", "Treasurer", "Procurement", "RFP",
    "Request for Proposal", "Bid", "Contract", "Capital", "Project",
    "Infrastructure"],
   mkRat 3 10, 50⟩

structure RankResponseItem where
  index : Nat
  relevanceScore : ℚ
  category : LinkCategory
  rationale : String
deriving Repr, DecidableEq

/-- The structured output the classification service returns for one batch. -/
structure RankingResponse where
  rankedLinks : List RankResponseItem
deriving Repr, DecidableEq

/-- The classification service (`chatCompletion` in services/openai.ts, not
part of this repository): an oracle from a batch to a response; `none` models
the call throwing. -/
def ClassifierOracle : Type := List ExtractedLink → Option RankingResponse

/-- `rankBatch`: map the returned rankings back to links by index, dropping
out-of-range indices; on service error, every link of the batch gets the
conservative default (score 0.1, category `other`). -/
def rankBatch (svc : ClassifierOracle) (links : List ExtractedLink)
    (config : RankerConfig) (startIndex : Nat) : List RankedLink :=
  match svc links with
  | some response =>
    response.rankedLinks.filterMap (fun r =>
      (links[r.index]?).map (fun link =>
        mkRanked link r.relevanceScore r.category r.rationale))
  | none => links.map (fun link => mkRanked link (mkRat 1 10) .other "Error during ranking")

/-- The batching `for` loop of `rankLinks` (`i += batchSize`).  The source
loops forever when `batchSize = 0`; that case is modelled as an empty result
and excluded by hypothesis wherever it matters. -/
def rankLoop (svc : ClassifierOracle) (cfg : RankerConfig) :
    List ExtractedLink → Nat → List RankedLink
  | links, i =>
    if hb : cfg.batchSize = 0 then []
    else if h : links = [] then []
    else rankBatch svc (links.take cfg.batchSize) cfg i ++
      rankLoop svc cfg (links.drop cfg.batchSize) (i + cfg.batchSize)
termination_by links _ => links.length
decreasing_by
  simp only [List.length_drop]
  have h1 : 0 < cfg.batchSize := Nat.pos_of_ne_zero hb
  have h2 : 0 < links.length := List.length_pos.mpr h
  omega

/-- `rankLinks`: batch, concatenate, sort descending by score. -/
def rankLinks (svc : ClassifierOracle) (links : List ExtractedLink)
    (config : RankerConfig) : List RankedLink :=
  if links = [] then []
  else sortByDesc (fun l => l.relevanceScore) (rankLoop svc config links 0)

/-! ### Heuristic ranking (`heuristicRank`)

The fixed table of case-insensitive regexes is modelled by `Pat`: a plain
substring (`lit`), an `a.*b` chain (`seq`, whose `.` cannot cross a newline,
hence the per-line check), an alternation (`anyOf`) and the end-anchored
`/\.pdf$/`. -/

/-- A single alternative of one regex: a plain substring (`lit`) or an
`a.*b` chain (`seq`, whose `.` cannot cross a newline). -/
inductive SimplePat where
  | lit (s : String)
  | seq (parts : List String)
deriving Repr

inductive Pat where
  | simple (p : SimplePat)
  | anyOf (ps : List SimplePat)
  | endsWithPdf
deriving Repr

/-- Substring test. -/
def containsSub (needle : List Char) : List Char → Bool
  | [] => needle.isPrefixOf []
  | c :: rest => needle.isPrefixOf (c :: rest) || containsSub needle rest

/-- Remainder after the leftmost occurrence of `needle`. -/
def dropAfterFirst (needle : List Char) : List Char → Option (List Char)
  | [] => if needle.isPrefixOf ([] : List Char) then some [] else none
  | c :: rest =>
    if needle.isPrefixOf (c :: rest) then some ((c :: rest).drop needle.length)
    else dropAfterFirst needle rest

/-- `p₁.*p₂.*…` matching within one line. -/
def seqMatch : List (List Char) → List Char → Bool
  | [], _ => true
  | p :: ps, hay =>
    match dropAfterFirst p hay with
    | some rest => seqMatch ps rest
    | none => false

def matchSimple : SimplePat → List Char → Bool
  | .lit s, text => containsSub s.data text
  | .seq parts, text =>
    (splitChar '\n' text).any (fun line => seqMatch (parts.map (fun p => p.data)) line)

def matchPat : Pat → List Char → Bool
  | .simple p, text => matchSimple p text
  | .anyOf ps, text => ps.any (fun p => matchSimple p text)
  | .endsWithPdf, text => (".pdf".data).isSuffixOf text

/-- The `highValuePatterns` weight table of `heuristicRank`. -/
def highValuePatterns : List (Pat × ℚ) :=
  [(.simple (.lit "budget"), mkRat 9 10),
   (.simple (.lit "acfr"), mkRat 95 100),
   (.simple (.seq ["annual", "financial", "report"]), mkRat 95 100),
   (.simple (.seq ["financial", "report"]), mkRat 85 100),
   (.simple (.lit "finance"), mkRat 8 10),
   (.simple (.lit "treasurer"), mkRat 8 10),
   (.anyOf [.lit "cfo", .seq ["chief", "financial"]], mkRat 85 100),
   (.simple (.lit "procurement"), mkRat 9 10),
   (.anyOf [.lit "rfp", .lit "rfq", .lit "rfi"], mkRat 95 100),
   (.anyOf [.lit "bid", .lit "bidding"], mkRat 85 100),
   (.simple (.lit "solicitation"), mkRat 9 10),
   (.simple (.lit "vendor"), mkRat 7 10),
   (.simple (.lit "contract"), mkRat 75 100),
   (.simple (.lit "contact"), mkRat 6 10),
   (.simple (.lit "directory"), mkRat 65 100),
   (.simple (.lit "staff"), mkRat 55 100),
   (.simple (.lit "agenda"), mkRat 7 10),
   (.simple (.lit "minutes"), mkRat 7 10),
   (.simple (.seq ["board", "meeting"]), mkRat 75 100),
   (.simple (.seq ["council", "meeting"]), mkRat 75 100),
   (.endsWithPdf, mkRat 5 10),
   (.simple (.lit "document"), mkRat 5 10),
   (.simple (.seq ["capital", "project"]), mkRat 85 100),
   (.simple (.seq ["capital", "improvement"]), mkRat 85 100)]

/-- `` `${link.url} ${link.anchorText} ${link.context}`.toLowerCase() ``. -/
def textToCheck (link : ExtractedLink) : List Char :=
  toLowerL (link.url.data ++ [' '] ++ link.anchorText.data ++ [' '] ++ link.context.data)

/-- A link's heuristic score: the maximum weight over matched patterns. -/
def heuristicScore (link : ExtractedLink) : ℚ :=
  highValuePatterns.foldl
    (fun m pw => if matchPat pw.1 (textToCheck link) then max m pw.2 else m) 0

/-- `heuristicRank`: score, drop non-matches, sort descending, strip scores. -/
def heuristicRank (links : List ExtractedLink) : List ExtractedLink :=
  let scored := links.map (fun link => (link, heuristicScore link))
  (sortByDesc (fun s => s.2) (scored.filter (fun s => 0 < s.2))).map (fun s => s.1)

/-- `filterByScore`. -/
def filterByScore (links : List RankedLink) (minScore : ℚ) : List RankedLink :=
  links.filter (fun link => minScore ≤ link.relevanceScore)

/-! ### Ranker lemmas -/

/-- The always-failing classification service. -/
def failingClassifier : ClassifierOracle := fun _ => none

theorem rankBatch_fail (svc : ClassifierOracle) (hsvc : ∀ batch, svc batch = none)
    (links : List ExtractedLink) (cfg : RankerConfig) (i : Nat) :
    rankBatch svc links cfg i =
      links.map (fun l => mkRanked l (mkRat 1 10) .other "Error during ranking") := by
  unfold rankBatch
  rw [hsvc links]

theorem rankLoop_fail (svc : ClassifierOracle) (hsvc : ∀ batch, svc batch = none)
    (cfg : RankerConfig) (hb : cfg.batchSize ≠ 0) :
    ∀ n links i, links.length ≤ n →
      rankLoop svc cfg links i =
        links.map (fun l => mkRanked l (mkRat 1 10) .other "Error during ranking") := by
  intro n
  induction n with
  | zero =>
    intro links i hl
    have h0 : links = [] := List.length_eq_zero.mp (Nat.le_zero.mp hl)
    subst h0
    rw [rankLoop]
    simp [hb]
  | succ n ih =>
    intro links i hl
    by_cases h : links = []
    · subst h
      rw [rankLoop]
      simp [hb]
    · rw [rankLoop, dif_neg hb, dif_neg h, rankBatch_fail svc hsvc,
        ih (links.drop cfg.batchSize) (i + cfg.batchSize) ?_,
        ← List.map_append, List.take_append_drop]
      have h1 : 0 < cfg.batchSize := Nat.pos_of_ne_zero hb
      have h2 : 0 < links.length := List.length_pos.mpr h
      simp only [List.length_drop]
      omega

theorem rankLinks_fail (svc : ClassifierOracle) (hsvc : ∀ batch, svc batch = none)
    (links : List ExtractedLink) (cfg : RankerConfig)
    (hb : cfg.batchSize ≠ 0) (hne : links ≠ []) :
    rankLinks svc links cfg =
      links.map (fun l => mkRanked l (mkRat 1 10) .other "Error during ranking") := by
  rw [rankLinks, if_neg hne,
    rankLoop_fail svc hsvc cfg hb links.length links 0 (le_refl _)]
  refine sortByDesc_const _ (mkRat 1 10) _ ?_
  intro x hx
  rcases List.mem_map.mp hx with ⟨l, -, hl⟩
  subst hl
  rfl

theorem heuristicRank_perm (links : List ExtractedLink) :
    List.Perm (heuristicRank links) (links.filter (fun l => 0 < heuristicScore l)) := by
  simp only [heuristicRank]
  have hfm : (links.map (fun link => (link, heuristicScore link))).filter (fun s => 0 < s.2) =
      (links.filter (fun l => 0 < heuristicScore l)).map (fun l => (l, heuristicScore l)) := by
    induction links with
    | nil => rfl
    | cons a as ihl =>
      by_cases ha : 0 < heuristicScore a
      · simp only [List.map_cons, List.filter_cons, decide_eq_true_eq]
        rw [if_pos ha, if_pos ha, ihl]
        rfl
      · simp only [List.map_cons, List.filter_cons, decide_eq_true_eq]
        rw [if_neg ha, if_neg ha, ihl]
  rw [hfm]
  have hperm := sortByDesc_perm (fun s : ExtractedLink × ℚ => s.2)
    ((links.filter (fun l => 0 < heuristicScore l)).map (fun l => (l, heuristicScore l)))
  have h3 := hperm.map (fun s : ExtractedLink × ℚ => s.1)
  rw [List.map_map,
    map_self_of_mem ((fun s : ExtractedLink × ℚ => s.1) ∘ fun l => (l, heuristicScore l))
      (links.filter (fun l => 0 < heuristicScore l)) (fun x _ => rfl)] at h3
  exact h3

theorem heuristicRank_sorted (links : List ExtractedLink) :
    (heuristicRank links).Pairwise (fun a b => heuristicScore b ≤ heuristicScore a) := by
  simp only [heuristicRank]
  have hpw := sortByDesc_pairwise (fun s : ExtractedLink × ℚ => s.2)
    ((links.map (fun link => (link, heuristicScore link))).filter (fun s => 0 < s.2))
  have hmem : ∀ x ∈ sortByDesc (fun s : ExtractedLink × ℚ => s.2)
      ((links.map (fun link => (link, heuristicScore link))).filter (fun s => 0 < s.2)),
      x.2 = heuristicScore x.1 := by
    intro x hx
    have h1 := (sortByDesc_perm _ _).mem_iff.mp hx
    have h2 := List.mem_of_mem_filter h1
    rcases List.mem_map.mp h2 with ⟨l, -, hl⟩
    subst hl
    rfl
  rw [List.pairwise_map]
  refine hpw.imp_of_mem ?_
  intro a b ha hb hab
  rw [← hmem a ha, ← hmem b hb]
  exact hab

/-! ## Crawler (crawler.ts `crawl`)

The page extractor (`extractLinksFromUrl`, `preFilterLinks` in extractor.ts)
and the classification service are not part of what the loop itself computes;
they are network/renderer collaborators and are passed as oracles in
`CrawlEnv`.  `LoopState` carries, besides the mutable state of the source
(`queue`, `visited`, `pages`, `allRankedLinks`, `errors`), two ghost fields
(`popped`, `fetchLog`) that record the dequeue/fetch trace for specification
purposes only — they never feed back into the computation. -/

structure PageContent where
  url : String
  title : String
  markdown : String
  links : List ExtractedLink
deriving Repr, DecidableEq

structure QueueItem where
  url : String
  depth : Nat
  parentUrl : Option String
  score : Option ℚ
deriving Repr, DecidableEq

structure CrawlerConfig where
  maxDepth : Nat
  maxPages : Nat
  minScoreToFollow : ℚ
  requestDelayMs : Nat
  concurrency : Nat
  useLlmRanking : Bool
  rankerConfig : RankerConfig
  sameDomainOnly : Bool
deriving Repr, DecidableEq

def DEFAULT_CRAWLER_CONFIG : CrawlerConfig :=
  ⟨2, 50, mkRat 1 2, 1000, 1, true, DEFAULT_RANKER_CONFIG, true⟩

/-- `domain.replace(/^www\./, "")`. -/
def stripWww (d : List Char) : List Char :=
  if ("www.".data).isPrefixOf d then d.drop 4 else d

/-- `isSameDomain` from crawler.ts. -/
def isSameDomain (domain1 domain2 : List Char) : Bool :=
  if domain1 = domain2 then true
  else
    let d1 := stripWww domain1
    let d2 := stripWww domain2
    if d1 = d2 then true
    else ('.' :: d1).isSuffixOf d2 || ('.' :: d2).isSuffixOf d1

/-- `new URL(s).hostname`; `none` models the constructor throwing. -/
def hostnameOfString (s : String) : Option (List Char) :=
  (parseUrlL s.data).map hostnameOf

structure CrawlEnv where
  fetch : String → Option PageContent
  preFilter : List ExtractedLink → String → List ExtractedLink
  classifier : ClassifierOracle

structure LoopState where
  queue : List QueueItem
  visited : List String
  pages : List PageContent
  rankedLinks : List RankedLink
  errors : List (String × String)
  popped : List QueueItem
  fetchLog : List (String × Nat)
  enqueueLog : List (Nat × Nat)
deriving Repr, DecidableEq

/-- The priority key used by `queue.sort((a, b) => (b.score || 0) - (a.score || 0))`. -/
def queueKey (it : QueueItem) : ℚ := it.score.getD 0

/-- The domain-fencing check of one loop iteration (the `try`/`catch` around
`new URL(normalizedUrl).hostname`; parse failure means skip). -/
def domainOk (cfg : CrawlerConfig) (seedDomain : List Char) (nu : String) : Bool :=
  if cfg.sameDomainOnly then
    match hostnameOfString nu with
    | some h => isSameDomain seedDomain h
    | none => false
  else true

/-- Link processing for one fetched page: pre-filter, heuristic rank, then
either the LLM ranker (only when the heuristic pass kept something) or flat
0.5 scores. -/
def rankPage (env : CrawlEnv) (cfg : CrawlerConfig) (links : List ExtractedLink)
    (nu : String) : List RankedLink :=
  let filtered := env.preFilter links nu
  if cfg.useLlmRanking then
    let hf := heuristicRank filtered
    if hf ≠ [] then rankLinks env.classifier hf cfg.rankerConfig else []
  else (heuristicRank filtered).map (fun l => mkRanked l (mkRat 1 2) .other "Heuristic match")

/-- The `while` loop of `crawl`. -/
def crawlLoop (env : CrawlEnv) (cfg : CrawlerConfig) (seedDomain : List Char) :
    LoopState → LoopState
  | st =>
    if hguard : st.queue ≠ [] ∧ st.pages.length < cfg.maxPages then
      match hsort : sortByDesc queueKey st.queue with
      | [] => st
      | item :: rest =>
        let st0 : LoopState := { st with queue := rest, popped := st.popped ++ [item] }
        let nu := normalizeUrl item.url
        if st.visited.contains nu then
          crawlLoop env cfg seedDomain st0
        else if ¬ domainOk cfg seedDomain nu then
          crawlLoop env cfg seedDomain st0
        else
          let st1 : LoopState := { st0 with visited := st0.visited ++ [nu] }
          match env.fetch nu with
          | none =>
            crawlLoop env cfg seedDomain
              { st1 with errors := st1.errors ++ [(nu, "Failed to fetch")] }
          | some pc =>
            let st2 : LoopState :=
              { st1 with pages := st1.pages ++ [pc],
                         fetchLog := st1.fetchLog ++ [(nu, item.depth)] }
            if item.depth < cfg.maxDepth ∧ pc.links ≠ [] then
              let ranked := rankPage env cfg pc.links nu
              let highValue := filterByScore ranked cfg.minScoreToFollow
              let newItems := (highValue.filter
                  (fun l => !(st2.visited.contains (normalizeUrl l.url)))).map
                (fun l => ⟨l.url, item.depth + 1, some nu, some l.relevanceScore⟩)
              crawlLoop env cfg seedDomain
                { st2 with rankedLinks := st2.rankedLinks ++ ranked,
                           queue := st2.queue ++ newItems,
                           enqueueLog := st2.enqueueLog ++
                             newItems.map (fun _ => (item.depth, item.depth + 1)) }
            else crawlLoop env cfg seedDomain st2
    else st
termination_by st => (cfg.maxPages - st.pages.length, st.queue.length)
decreasing_by
  all_goals
    have hlen : rest.length + 1 = st.queue.length := by
      rw [← sortByDesc_length queueKey st.queue, hsort, List.length_cons]
  all_goals simp_wf
  · show Prod.Lex (· < ·) (· < ·) (cfg.maxPages - st.pages.length, rest.length)
      (cfg.maxPages - st.pages.length, st.queue.length)
    exact Prod.Lex.right _ (by omega)
  · show Prod.Lex (· < ·) (· < ·) (cfg.maxPages - st.pages.length, rest.length)
      (cfg.maxPages - st.pages.length, st.queue.length)
    exact Prod.Lex.right _ (by omega)
  · show Prod.Lex (· < ·) (· < ·) (cfg.maxPages - st.pages.length, rest.length)
      (cfg.maxPages - st.pages.length, st.queue.length)
    exact Prod.Lex.right _ (by omega)
  · show Prod.Lex (· < ·) (· < ·) (cfg.maxPages - (st.pages.length + 1), _)
      (cfg.maxPages - st.pages.length, st.queue.length)
    exact Prod.Lex.left _ _ (by omega)
  · show Prod.Lex (· < ·) (· < ·) (cfg.maxPages - (st.pages.length + 1), rest.length)
      (cfg.maxPages - st.pages.length, st.queue.length)
    exact Prod.Lex.left _ _ (by omega)

def initState (seedUrl : String) : LoopState :=
  ⟨[⟨normalizeUrl seedUrl, 0, none, none⟩], [], [], [], [], [], [], []⟩

/-- The crawl with its final loop state exposed.  `none` models
`new URL(normalizedSeed).hostname` throwing on a malformed seed, which aborts
the whole run. -/
def crawlState (env : CrawlEnv) (seedUrl : String) (config : CrawlerConfig) :
    Option LoopState :=
  match hostnameOfString (normalizeUrl seedUrl) with
  | none => none
  | some seedDomain => some (crawlLoop env config seedDomain (initState seedUrl))

structure CrawlResult where
  pages : List PageContent
  rankedLinks : List RankedLink
  totalPagesProcessed : Nat
  totalLinksFound : Nat
  totalHighValueLinks : Nat
  errors : List (String × String)
deriving Repr, DecidableEq

/-- `crawl` as exposed to callers. -/
def crawl (env : CrawlEnv) (seedUrl : String) (config : CrawlerConfig) :
    Option CrawlResult :=
  (crawlState env seedUrl config).map (fun st =>
    ⟨st.pages, st.rankedLinks, st.pages.length, st.rankedLinks.length,
      (st.rankedLinks.filter (fun l => mkRat 7 10 ≤ l.relevanceScore)).length,
      st.errors⟩)

/-! ### Step equations for the crawl loop -/

theorem crawlLoop_stop (env : CrawlEnv) (cfg : CrawlerConfig) (sd : List Char)
    (st : LoopState) (h : ¬(st.queue ≠ [] ∧ st.pages.length < cfg.maxPages)) :
    crawlLoop env cfg sd st = st := by
  rw [crawlLoop.eq_def]
  exact dif_neg h

theorem crawlLoop_skip_visited (env : CrawlEnv) (cfg : CrawlerConfig) (sd : List Char)
    (st : LoopState) (item : QueueItem) (rest : List QueueItem)
    (hguard : st.queue ≠ [] ∧ st.pages.length < cfg.maxPages)
    (hsort : sortByDesc queueKey st.queue = item :: rest)
    (hvis : st.visited.contains (normalizeUrl item.url) = true) :
    crawlLoop env cfg sd st =
      crawlLoop env cfg sd { st with queue := rest, popped := st.popped ++ [item] } := by
  rw [crawlLoop.eq_def]
  simp only [dif_pos hguard]
  split
  · rename_i heq
    rw [hsort] at heq
    cases heq
  · rename_i item' rest' heq
    rw [hsort] at heq
    injection heq with h1 h2
    subst h1; subst h2
    rw [if_pos hvis]

theorem crawlLoop_skip_domain (env : CrawlEnv) (cfg : CrawlerConfig) (sd : List Char)
    (st : LoopState) (item : QueueItem) (rest : List QueueItem)
    (hguard : st.queue ≠ [] ∧ st.pages.length < cfg.maxPages)
    (hsort : sortByDesc queueKey st.queue = item :: rest)
    (hvis : ¬ st.visited.contains (normalizeUrl item.url) = true)
    (hdom : ¬ domainOk cfg sd (normalizeUrl item.url) = true) :
    crawlLoop env cfg sd st =
      crawlLoop env cfg sd { st with queue := rest, popped := st.popped ++ [item] } := by
  rw [crawlLoop.eq_def]
  simp only [dif_pos hguard]
  split
  · rename_i heq
    rw [hsort] at heq
    cases heq
  · rename_i item' rest' heq
    rw [hsort] at heq
    injection heq with h1 h2
    subst h1; subst h2
    rw [if_neg hvis, if_pos hdom]

theorem crawlLoop_fetch_fail (env : CrawlEnv) (cfg : CrawlerConfig) (sd : List Char)
    (st : LoopState) (item : QueueItem) (rest : List QueueItem)
    (hguard : st.queue ≠ [] ∧ st.pages.length < cfg.maxPages)
    (hsort : sortByDesc queueKey st.queue = item :: rest)
    (hvis : ¬ st.visited.contains (normalizeUrl item.url) = true)
    (hdom : domainOk cfg sd (normalizeUrl item.url) = true)
    (hfetch : env.fetch (normalizeUrl item.url) = none) :
    crawlLoop env cfg sd st =
      crawlLoop env cfg sd
        { st with queue := rest, popped := st.popped ++ [item],
                  visited := st.visited ++ [normalizeUrl item.url],
                  errors := st.errors ++ [(normalizeUrl item.url, "Failed to fetch")] } := by
  rw [crawlLoop.eq_def]
  simp only [dif_pos hguard]
  split
  · rename_i heq
    rw [hsort] at heq
    cases heq
  · rename_i item' rest' heq
    rw [hsort] at heq
    injection heq with h1 h2
    subst h1; subst h2
    rw [if_neg hvis, if_neg (by simpa using hdom), hfetch]

theorem crawlLoop_fetch_links (env : CrawlEnv) (cfg : CrawlerConfig) (sd : List Char)
    (st : LoopState) (item : QueueItem) (rest : List QueueItem) (pc : PageContent)
    (hguard : st.queue ≠ [] ∧ st.pages.length < cfg.maxPages)
    (hsort : sortByDesc queueKey st.queue = item :: rest)
    (hvis : ¬ st.visited.contains (normalizeUrl item.url) = true)
    (hdom : domainOk cfg sd (normalizeUrl item.url) = true)
    (hfetch : env.fetch (normalizeUrl item.url) = some pc)
    (hlinks : item.depth < cfg.maxDepth ∧ pc.links ≠ []) :
    crawlLoop env cfg sd st =
      (let nu := normalizeUrl item.url
       let ranked := rankPage env cfg pc.links nu
       let highValue := filterByScore ranked cfg.minScoreToFollow
       let newItems := (highValue.filter
           (fun l => !((st.visited ++ [nu]).contains (normalizeUrl l.url)))).map
         (fun l => ⟨l.url, item.depth + 1, some nu, some l.relevanceScore⟩)
       crawlLoop env cfg sd
        { st with queue := rest ++ newItems,
                  popped := st.popped ++ [item],
                  visited := st.visited ++ [nu],
                  pages := st.pages ++ [pc],
                  fetchLog := st.fetchLog ++ [(nu, item.depth)],
                  rankedLinks := st.rankedLinks ++ ranked,
                  enqueueLog := st.enqueueLog ++
                    newItems.map (fun _ => (item.depth, item.depth + 1)) }) := by
  rw [crawlLoop.eq_def]
  simp only [dif_pos hguard]
  split
  · rename_i heq
    rw [hsort] at heq
    cases heq
  · rename_i item' rest' heq
    rw [hsort] at heq
    injection heq with h1 h2
    subst h1; subst h2
    rw [if_neg hvis, if_neg (by simpa using hdom), hfetch]
    simp only [if_pos hlinks]

theorem crawlLoop_fetch_nolinks (env : CrawlEnv) (cfg : CrawlerConfig) (sd : List Char)
    (st : LoopState) (item : QueueItem) (rest : List QueueItem) (pc : PageContent)
    (hguard : st.queue ≠ [] ∧ st.pages.length < cfg.maxPages)
    (hsort : sortByDesc queueKey st.queue = item :: rest)
    (hvis : ¬ st.visited.contains (normalizeUrl item.url) = true)
    (hdom : domainOk cfg sd (normalizeUrl item.url) = true)
    (hfetch : env.fetch (normalizeUrl item.url) = some pc)
    (hnolinks : ¬(item.depth < cfg.maxDepth ∧ pc.links ≠ [])) :
    crawlLoop env cfg sd st =
      crawlLoop env cfg sd
        { st with queue := rest, popped := st.popped ++ [item],
                  visited := st.visited ++ [normalizeUrl item.url],
                  pages := st.pages ++ [pc],
                  fetchLog := st.fetchLog ++ [(normalizeUrl item.url, item.depth)] } := by
  rw [crawlLoop.eq_def]
  simp only [dif_pos hguard]
  split
  · rename_i heq
    rw [hsort] at heq
    cases heq
  · rename_i item' rest' heq
    rw [hsort] at heq
    injection heq with h1 h2
    subst h1; subst h2
    rw [if_neg hvis, if_neg (by simpa using hdom), hfetch]
    simp only [if_neg hnolinks]

/-! ### The crawl invariant (claims C1–C3) -/

/-- Loop invariant: fetched normalized URLs are pairwise distinct and all
recorded in `visited`; the pages list mirrors the fetch log; all queue,
popped and fetch-log depths are bounded by `maxDepth`; the enqueue log only
records `depth + 1` children of items strictly below `maxDepth`; and at most
`maxPages` pages have been collected. -/
def CrawlInv (cfg : CrawlerConfig) (st : LoopState) : Prop :=
  (st.fetchLog.map Prod.fst).Nodup ∧
  (∀ e ∈ st.fetchLog, e.1 ∈ st.visited) ∧
  (st.pages.map PageContent.url = st.fetchLog.map Prod.fst) ∧
  (∀ it ∈ st.queue, it.depth ≤ cfg.maxDepth) ∧
  (∀ it ∈ st.popped, it.depth ≤ cfg.maxDepth) ∧
  (∀ e ∈ st.fetchLog, e.2 ≤ cfg.maxDepth) ∧
  (∀ pr ∈ st.enqueueLog, pr.2 = pr.1 + 1 ∧ pr.1 < cfg.maxDepth) ∧
  st.pages.length ≤ cfg.maxPages

theorem CrawlInv_pop (cfg : CrawlerConfig) (st : LoopState) (item : QueueItem)
    (rest : List QueueItem) (hperm : List.Perm (item :: rest) st.queue)
    (hinv : CrawlInv cfg st) :
    CrawlInv cfg { st with queue := rest, popped := st.popped ++ [item] } := by
  obtain ⟨h1, h2, h3, h4, h5, h6, h7, h8⟩ := hinv
  refine ⟨h1, h2, h3, ?_, ?_, h6, h7, h8⟩
  · intro it hit
    exact h4 it (hperm.subset (List.mem_cons_of_mem item hit))
  · intro it hit
    rcases List.mem_append.mp hit with h | h
    · exact h5 it h
    · rw [List.mem_singleton.mp h]
      exact h4 item (hperm.subset (List.mem_cons_self item rest))

theorem CrawlInv_fetch (cfg : CrawlerConfig) (st : LoopState) (nu : String)
    (d : Nat) (pc : PageContent)
    (hnu : pc.url = nu) (hnew : nu ∉ st.visited) (hd : d ≤ cfg.maxDepth)
    (hlen : st.pages.length < cfg.maxPages)
    (hinv : CrawlInv cfg st) :
    CrawlInv cfg { st with visited := st.visited ++ [nu],
                           pages := st.pages ++ [pc],
                           fetchLog := st.fetchLog ++ [(nu, d)] } := by
  obtain ⟨h1, h2, h3, h4, h5, h6, h7, h8⟩ := hinv
  refine ⟨?_, ?_, ?_, h4, h5, ?_, h7, ?_⟩
  · simp only [List.map_append, List.map_cons, List.map_nil, List.nodup_append]
    refine ⟨h1, by simp, ?_⟩
    intro a ha
    simp only [List.mem_singleton]
    intro hcontra
    subst hcontra
    rcases List.mem_map.mp ha with ⟨e, he, hfst⟩
    exact hnew (hfst ▸ h2 e he)
  · intro e he
    rcases List.mem_append.mp he with h | h
    · exact List.mem_append_left _ (h2 e h)
    · rw [List.mem_singleton.mp h]
      exact List.mem_append_right _ (by simp)
  · simp only [List.map_append, List.map_cons, List.map_nil, h3, hnu]
  · intro e he
    rcases List.mem_append.mp he with h | h
    · exact h6 e h
    · rw [List.mem_singleton.mp h]
      exact hd
  · simp only [List.length_append, List.length_cons, List.length_nil]
    omega

theorem CrawlInv_enqueue (cfg : CrawlerConfig) (st : LoopState) (d : Nat)
    (ranked : List RankedLink) (newItems : List QueueItem)
    (hdepth : d < cfg.maxDepth)
    (hitems : ∀ it ∈ newItems, it.depth = d + 1)
    (hinv : CrawlInv cfg st) :
    CrawlInv cfg { st with queue := st.queue ++ newItems,
                           rankedLinks := st.rankedLinks ++ ranked,
                           enqueueLog := st.enqueueLog ++
                             newItems.map (fun _ => (d, d + 1)) } := by
  obtain ⟨h1, h2, h3, h4, h5, h6, h7, h8⟩ := hinv
  refine ⟨h1, h2, h3, ?_, h5, h6, ?_, h8⟩
  · intro it hit
    rcases List.mem_append.mp hit with h | h
    · exact h4 it h
    · rw [hitems it h]
      omega
  · intro pr hpr
    rcases List.mem_append.mp hpr with h | h
    · exact h7 pr h
    · rcases List.mem_map.mp h with ⟨_, -, hpr2⟩
      rw [← hpr2]
      exact ⟨rfl, hdepth⟩
/-- The crawl loop preserves the invariant, assuming the extractor contract:
a fetched page reports the URL it was fetched from. -/
theorem crawlLoop_inv (env : CrawlEnv) (cfg : CrawlerConfig) (sd : List Char)
    (Henv : ∀ u pc, env.fetch u = some pc → pc.url = u) :
    ∀ st : LoopState, CrawlInv cfg st → CrawlInv cfg (crawlLoop env cfg sd st) := by
  intro st
  induction st using crawlLoop.induct env cfg sd with
  | case1 st st' hguard hsortnil =>
    intro hinv
    exfalso
    have hl := sortByDesc_length queueKey st.queue
    rw [hsortnil] at hl
    exact hguard.1 (List.length_eq_zero.mp hl.symm)
  | case2 st st' hguard item rest hsort st0 nu hvis ih =>
    intro hinv
    rw [crawlLoop_skip_visited env cfg sd st item rest hguard hsort hvis]
    exact ih (CrawlInv_pop cfg st item rest (hsort ▸ sortByDesc_perm queueKey st.queue) hinv)
  | case3 st st' hguard item rest hsort st0 nu hvis hdom ih =>
    intro hinv
    rw [crawlLoop_skip_domain env cfg sd st item rest hguard hsort hvis hdom]
    exact ih (CrawlInv_pop cfg st item rest (hsort ▸ sortByDesc_perm queueKey st.queue) hinv)
  | case4 st st' hguard item rest hsort st0 nu hvis hdom st1 hfetch ih =>
    intro hinv
    rw [crawlLoop_fetch_fail env cfg sd st item rest hguard hsort hvis
      (by simpa using hdom) hfetch]
    apply ih
    have hpop := CrawlInv_pop cfg st item rest (hsort ▸ sortByDesc_perm queueKey st.queue) hinv
    obtain ⟨h1, h2, h3, h4, h5, h6, h7, h8⟩ := hpop
    refine ⟨h1, ?_, h3, h4, h5, h6, h7, h8⟩
    intro e he
    exact List.mem_append_left _ (h2 e he)
  | case5 st st' hguard item rest hsort st0 nu hvis hdom st1 pc hfetch st2 hlinks ranked highValue newItems ih =>
    intro hinv
    rw [crawlLoop_fetch_links env cfg sd st item rest pc hguard hsort hvis
      (by simpa using hdom) hfetch hlinks]
    apply ih
    have hperm : List.Perm (item :: rest) st.queue := hsort ▸ sortByDesc_perm queueKey st.queue
    have hitem : item.depth ≤ cfg.maxDepth :=
      hinv.2.2.2.1 item (hperm.subset (List.mem_cons_self item rest))
    have hpop := CrawlInv_pop cfg st item rest hperm hinv
    have hnew : normalizeUrl item.url ∉ st.visited := by
      intro hmem
      exact hvis (by simpa using hmem)
    have hfetched := CrawlInv_fetch cfg
      { st with queue := rest, popped := st.popped ++ [item] }
      (normalizeUrl item.url) item.depth pc
      (Henv _ pc hfetch) hnew hitem hguard.2 hpop
    exact CrawlInv_enqueue cfg
      { st with queue := rest, popped := st.popped ++ [item],
                visited := st.visited ++ [normalizeUrl item.url],
                pages := st.pages ++ [pc],
                fetchLog := st.fetchLog ++ [(normalizeUrl item.url, item.depth)] }
      item.depth
      (rankPage env cfg pc.links (normalizeUrl item.url))
      _
      hlinks.1
      (by
        intro it hit
        rcases List.mem_map.mp hit with ⟨l, -, hl⟩
        rw [← hl])
      hfetched
  | case6 st st' hguard item rest hsort st0 nu hvis hdom st1 pc hfetch st2 hnolinks ih =>
    intro hinv
    rw [crawlLoop_fetch_nolinks env cfg sd st item rest pc hguard hsort hvis
      (by simpa using hdom) hfetch hnolinks]
    apply ih
    have hperm : List.Perm (item :: rest) st.queue := hsort ▸ sortByDesc_perm queueKey st.queue
    have hitem : item.depth ≤ cfg.maxDepth :=
      hinv.2.2.2.1 item (hperm.subset (List.mem_cons_self item rest))
    have hpop := CrawlInv_pop cfg st item rest hperm hinv
    have hnew : normalizeUrl item.url ∉ st.visited := by
      intro hmem
      exact hvis (by simpa using hmem)
    exact CrawlInv_fetch cfg
      { st with queue := rest, popped := st.popped ++ [item] }
      (normalizeUrl item.url) item.depth pc
      (Henv _ pc hfetch) hnew hitem hguard.2 hpop
  | case7 st st' hguard =>
    intro hinv
    rw [crawlLoop_stop env cfg sd st hguard]
    exact hinv

/-- The loop exits exactly when the frontier is empty or the page budget is
reached. -/
theorem crawlLoop_exit (env : CrawlEnv) (cfg : CrawlerConfig) (sd : List Char) :
    ∀ st : LoopState,
      (crawlLoop env cfg sd st).queue = [] ∨
        cfg.maxPages ≤ (crawlLoop env cfg sd st).pages.length := by
  intro st
  induction st using crawlLoop.induct env cfg sd with
  | case1 st st' hguard hsortnil =>
    exfalso
    have hl := sortByDesc_length queueKey st.queue
    rw [hsortnil] at hl
    exact hguard.1 (List.length_eq_zero.mp hl.symm)
  | case2 st st' hguard item rest hsort st0 nu hvis ih =>
    rw [crawlLoop_skip_visited env cfg sd st item rest hguard hsort hvis]
    exact ih
  | case3 st st' hguard item rest hsort st0 nu hvis hdom ih =>
    rw [crawlLoop_skip_domain env cfg sd st item rest hguard hsort hvis hdom]
    exact ih
  | case4 st st' hguard item rest hsort st0 nu hvis hdom st1 hfetch ih =>
    rw [crawlLoop_fetch_fail env cfg sd st item rest hguard hsort hvis
      (by simpa using hdom) hfetch]
    exact ih
  | case5 st st' hguard item rest hsort st0 nu hvis hdom st1 pc hfetch st2 hlinks ranked highValue newItems ih =>
    rw [crawlLoop_fetch_links env cfg sd st item rest pc hguard hsort hvis
      (by simpa using hdom) hfetch hlinks]
    exact ih
  | case6 st st' hguard item rest hsort st0 nu hvis hdom st1 pc hfetch st2 hnolinks ih =>
    rw [crawlLoop_fetch_nolinks env cfg sd st item rest pc hguard hsort hvis
      (by simpa using hdom) hfetch hnolinks]
    exact ih
  | case7 st st' hguard =>
    rw [crawlLoop_stop env cfg sd st hguard]
    rcases Decidable.not_and_iff_or_not.mp hguard with h | h
    · exact Or.inl (Decidable.not_not.mp h)
    · exact Or.inr (Nat.le_of_not_lt h)

/-- The depth/budget part of the loop invariant, provable without any
assumption on the extractor: every queued or dequeued item and every fetch
is at depth at most `maxDepth`, enqueues are `depth + 1` children of pages
strictly below `maxDepth`, and at most `maxPages` pages are collected. -/
def DepthInv (cfg : CrawlerConfig) (st : LoopState) : Prop :=
  (∀ it ∈ st.queue, it.depth ≤ cfg.maxDepth) ∧
  (∀ it ∈ st.popped, it.depth ≤ cfg.maxDepth) ∧
  (∀ e ∈ st.fetchLog, e.2 ≤ cfg.maxDepth) ∧
  (∀ pr ∈ st.enqueueLog, pr.2 = pr.1 + 1 ∧ pr.1 < cfg.maxDepth) ∧
  st.pages.length ≤ cfg.maxPages

theorem DepthInv_pop (cfg : CrawlerConfig) (st : LoopState) (item : QueueItem)
    (rest : List QueueItem) (hperm : List.Perm (item :: rest) st.queue)
    (hinv : DepthInv cfg st) :
    DepthInv cfg { st with queue := rest, popped := st.popped ++ [item] } := by
  obtain ⟨h1, h2, h3, h4, h5⟩ := hinv
  refine ⟨?_, ?_, h3, h4, h5⟩
  · intro it hit
    exact h1 it (hperm.subset (List.mem_cons_of_mem item hit))
  · intro it hit
    rcases List.mem_append.mp hit with h | h
    · exact h2 it h
    · rw [List.mem_singleton.mp h]
      exact h1 item (hperm.subset (List.mem_cons_self item rest))

theorem DepthInv_fetch (cfg : CrawlerConfig) (st : LoopState) (nu : String)
    (d : Nat) (pc : PageContent) (hd : d ≤ cfg.maxDepth)
    (hlen : st.pages.length < cfg.maxPages) (hinv : DepthInv cfg st) :
    DepthInv cfg { st with visited := st.visited ++ [nu],
                           pages := st.pages ++ [pc],
                           fetchLog := st.fetchLog ++ [(nu, d)] } := by
  obtain ⟨h1, h2, h3, h4, h5⟩ := hinv
  refine ⟨h1, h2, ?_, h4, ?_⟩
  · intro e he
    rcases List.mem_append.mp he with h | h
    · exact h3 e h
    · rw [List.mem_singleton.mp h]
      exact hd
  · simp only [List.length_append, List.length_cons, List.length_nil]
    omega

theorem DepthInv_enqueue (cfg : CrawlerConfig) (st : LoopState) (d : Nat)
    (ranked : List RankedLink) (newItems : List QueueItem)
    (hdepth : d < cfg.maxDepth)
    (hitems : ∀ it ∈ newItems, it.depth = d + 1)
    (hinv : DepthInv cfg st) :
    DepthInv cfg { st with queue := st.queue ++ newItems,
                           rankedLinks := st.rankedLinks ++ ranked,
                           enqueueLog := st.enqueueLog ++
                             newItems.map (fun _ => (d, d + 1)) } := by
  obtain ⟨h1, h2, h3, h4, h5⟩ := hinv
  refine ⟨?_, h2, h3, ?_, h5⟩
  · intro it hit
    rcases List.mem_append.mp hit with h | h
    · exact h1 it h
    · rw [hitems it h]
      omega
  · intro pr hpr
    rcases List.mem_append.mp hpr with h | h
    · exact h4 pr h
    · rcases List.mem_map.mp h with ⟨_, -, hpr2⟩
      rw [← hpr2]
      exact ⟨rfl, hdepth⟩

/-- The crawl loop preserves the depth/budget invariant, with no assumption
on the extractor. -/
theorem crawlLoop_depth_inv (env : CrawlEnv) (cfg : CrawlerConfig) (sd : List Char) :
    ∀ st : LoopState, DepthInv cfg st → DepthInv cfg (crawlLoop env cfg sd st) := by
  intro st
  induction st using crawlLoop.induct env cfg sd with
  | case1 st st' hguard hsortnil =>
    intro hinv
    exfalso
    have hl := sortByDesc_length queueKey st.queue
    rw [hsortnil] at hl
    exact hguard.1 (List.length_eq_zero.mp hl.symm)
  | case2 st st' hguard item rest hsort st0 nu hvis ih =>
    intro hinv
    rw [crawlLoop_skip_visited env cfg sd st item rest hguard hsort hvis]
    exact ih (DepthInv_pop cfg st item rest (hsort ▸ sortByDesc_perm queueKey st.queue) hinv)
  | case3 st st' hguard item rest hsort st0 nu hvis hdom ih =>
    intro hinv
    rw [crawlLoop_skip_domain env cfg sd st item rest hguard hsort hvis hdom]
    exact ih (DepthInv_pop cfg st item rest (hsort ▸ sortByDesc_perm queueKey st.queue) hinv)
  | case4 st st' hguard item rest hsort st0 nu hvis hdom st1 hfetch ih =>
    intro hinv
    rw [crawlLoop_fetch_fail env cfg sd st item rest hguard hsort hvis
      (by simpa using hdom) hfetch]
    exact ih (DepthInv_pop cfg st item rest (hsort ▸ sortByDesc_perm queueKey st.queue) hinv)
  | case5 st st' hguard item rest hsort st0 nu hvis hdom st1 pc hfetch st2 hlinks ranked highValue newItems ih =>
    intro hinv
    rw [crawlLoop_fetch_links env cfg sd st item rest pc hguard hsort hvis
      (by simpa using hdom) hfetch hlinks]
    apply ih
    have hperm : List.Perm (item :: rest) st.queue := hsort ▸ sortByDesc_perm queueKey st.queue
    have hitem : item.depth ≤ cfg.maxDepth :=
      hinv.1 item (hperm.subset (List.mem_cons_self item rest))
    have hpop := DepthInv_pop cfg st item rest hperm hinv
    have hfetched := DepthInv_fetch cfg
      { st with queue := rest, popped := st.popped ++ [item] }
      (normalizeUrl item.url) item.depth pc hitem hguard.2 hpop
    exact DepthInv_enqueue cfg
      { st with queue := rest, popped := st.popped ++ [item],
                visited := st.visited ++ [normalizeUrl item.url],
                pages := st.pages ++ [pc],
                fetchLog := st.fetchLog ++ [(normalizeUrl item.url, item.depth)] }
      item.depth
      (rankPage env cfg pc.links (normalizeUrl item.url))
      _
      hlinks.1
      (by
        intro it hit
        rcases List.mem_map.mp hit with ⟨l, -, hl⟩
        rw [← hl])
      hfetched
  | case6 st st' hguard item rest hsort st0 nu hvis hdom st1 pc hfetch st2 hnolinks ih =>
    intro hinv
    rw [crawlLoop_fetch_nolinks env cfg sd st item rest pc hguard hsort hvis
      (by simpa using hdom) hfetch hnolinks]
    apply ih
    have hperm : List.Perm (item :: rest) st.queue := hsort ▸ sortByDesc_perm queueKey st.queue
    have hitem : item.depth ≤ cfg.maxDepth :=
      hinv.1 item (hperm.subset (List.mem_cons_self item rest))
    exact DepthInv_fetch cfg
      { st with queue := rest, popped := st.popped ++ [item] }
      (normalizeUrl item.url) item.depth pc hitem hguard.2
      (DepthInv_pop cfg st item rest hperm hinv)
  | case7 st st' hguard =>
    intro hinv
    rw [crawlLoop_stop env cfg sd st hguard]
    exact hinv

/-- Unpacks a successful `crawlState` into the loop equation it came from. -/
theorem crawlState_some (env : CrawlEnv) (seedUrl : String) (cfg : CrawlerConfig)
    (st : LoopState) (hst : crawlState env seedUrl cfg = some st) :
    ∃ sd, hostnameOfString (normalizeUrl seedUrl) = some sd ∧
      crawlLoop env cfg sd (initState seedUrl) = st := by
  unfold crawlState at hst
  split at hst
  · cases hst
  · rename_i sd hsd
    exact ⟨sd, hsd, Option.some.inj hst⟩

theorem initState_DepthInv (cfg : CrawlerConfig) (seedUrl : String) :
    DepthInv cfg (initState seedUrl) := by
  refine ⟨?_, by simp [initState], by simp [initState], by simp [initState],
    by simp [initState]⟩
  intro it hit
  have h1 : it = ⟨normalizeUrl seedUrl, 0, none, none⟩ := by simpa [initState] using hit
  rw [h1]
  exact Nat.zero_le _

theorem initState_CrawlInv (cfg : CrawlerConfig) (seedUrl : String) :
    CrawlInv cfg (initState seedUrl) := by
  refine ⟨by simp [initState], by simp [initState], by simp [initState], ?_,
    by simp [initState], by simp [initState], by simp [initState], by simp [initState]⟩
  intro it hit
  have h1 : it = ⟨normalizeUrl seedUrl, 0, none, none⟩ := by simpa [initState] using hit
  rw [h1]
  exact Nat.zero_le _

/-! ## Document chunker (services/chunker.ts)

`countTokens` calls the external `gpt-tokenizer` `encode`, which is not part
of this repository; per the spec it is only a deterministic
`countTokens(text) -> integer`.  All chunker functions therefore take the
tokenizer `tok` as a parameter; where a concrete count is needed, `tokWords`
(whitespace-delimited word count) instantiates it. -/

structure ChunkResult where
  sectionTitle : String
  content : String
  tokenCount : Nat
  chunkIndex : Nat
deriving Repr, DecidableEq

def MAX_CHUNK_TOKENS : Nat := 1000
def MIN_CHUNK_TOKENS : Nat := 100
def OVERLAP_TOKENS : Nat := 50

theorem length_dropWhile_le {α : Type} (p : α → Bool) (l : List α) :
    (l.dropWhile p).length ≤ l.length := by
  induction l with
  | nil => simp
  | cons c cs ih =>
    rw [List.dropWhile_cons]
    split
    · exact Nat.le_trans ih (by simp)
    · exact le_refl _

/-- Whitespace-delimited words of a string (empty pieces skipped). -/
def wordsOf : List Char → List (List Char)
  | [] => []
  | [c] => if isWs c then [] else [[c]]
  | c :: d :: cs =>
    if isWs c then wordsOf (d :: cs)
    else if isWs d then [c] :: wordsOf (d :: cs)
    else (c :: (wordsOf (d :: cs)).headI) :: (wordsOf (d :: cs)).tail

/-- Modelled from the spec: the deterministic tokenizer interface
`countTokens(text) -> integer` (§6: "Deterministic tokenizer ... stable
across calls"); the actual `gpt-tokenizer` `encode` is an external library
absent from the repository.  `tokWords` counts whitespace-delimited words, a
standard deterministic approximation of a BPE token count. -/
def tokWords (s : String) : Nat := (wordsOf s.data).length

/-- Piece collector for `text.split(/\s+/)`: the flag is true while inside a
maximal whitespace run (the already-emitted separator). -/
def splitWsAux : Bool → List Char → List (List Char)
  | _, [] => [[]]
  | true, c :: rest =>
    if isWs c then splitWsAux true rest
    else (c :: (splitWsAux false rest).headI) :: (splitWsAux false rest).tail
  | false, c :: rest =>
    if isWs c then [] :: splitWsAux true rest
    else (c :: (splitWsAux false rest).headI) :: (splitWsAux false rest).tail

/-- JS `text.split(/\s+/)` — empty boundary pieces included. -/
def splitWsJS (l : List Char) : List (List Char) := splitWsAux false l

/-- Piece collector for `text.split(/\n\n+/)`: the flag is true while inside
a maximal run of newlines that already produced a split. -/
def splitParasAux : Bool → List Char → List (List Char)
  | _, [] => [[]]
  | true, '\n' :: rest => splitParasAux true rest
  | false, '\n' :: '\n' :: rest => [] :: splitParasAux true rest
  | _, c :: rest =>
    (c :: (splitParasAux false rest).headI) :: (splitParasAux false rest).tail

/-- JS `text.split(/\n\n+/)`: split on maximal runs of two or more
newlines. -/
def splitParas (l : List Char) : List (List Char) := splitParasAux false l

/-- `splitByParagraphs`: blank-line split, trim, drop empties. -/
def splitByParagraphs (text : String) : List String :=
  (((splitParas text.data).map trimL).filter (fun p => p ≠ [])).map
    (fun p => (⟨p⟩ : String))

/-- The sentence boundary `/(?<=[.!?])\s+(?=[A-Z])/`: a maximal whitespace
run preceded by `.`/`!`/`?` and followed by an uppercase letter. -/
def sentSplitAux : List Char → Option Char → List (List Char)
  | [], _ => [[]]
  | c :: rest, prev =>
    if (prev = some '.' ∨ prev = some '!' ∨ prev = some '?') ∧ isWs c then
      match ha : rest.dropWhile isWs with
      | a :: as =>
        if 'A' ≤ a ∧ a ≤ 'Z' then
          match sentSplitAux (a :: as) (some ' ') with
          | [] => [[]]
          | h :: t => [] :: h :: t
        else
          match sentSplitAux rest (some c) with
          | [] => [[]]
          | h :: t => (c :: h) :: t
      | [] =>
        match sentSplitAux rest (some c) with
        | [] => [[]]
        | h :: t => (c :: h) :: t
    else
      match sentSplitAux rest (some c) with
      | [] => [[]]
      | h :: t => (c :: h) :: t
termination_by l _ => l.length
decreasing_by
  · simp_wf
    have h1 : (rest.dropWhile isWs).length ≤ rest.length := length_dropWhile_le _ rest
    rw [ha] at h1
    simp only [List.length_cons] at h1
    omega
  all_goals simp_wf

/-- Sentence split of `splitOversizedParagraph` (with the non-blank filter).
The whitespace run consumed by a split is dropped with it (`String.split`
removes the matched separator), which is why `sentSplitAux` restarts at the
first character after the run. -/
def splitSentences (text : String) : List (List Char) :=
  (sentSplitAux text.data none).filter (fun s => trimL s ≠ [])

def joinSp (ws : List (List Char)) : List Char := joinSep ' ' ws

/-- The word-packing loop of `splitByTokenCount`. -/
def wordLoop (tok : String → Nat) : List (List Char) → List (List Char) → Nat → List String
  | [], cur, _ => if cur ≠ [] then [(⟨joinSp cur⟩ : String)] else []
  | w :: rest, cur, curTok =>
    let wTok := tok ⟨w ++ [' ']⟩
    if curTok + wTok > MAX_CHUNK_TOKENS ∧ cur ≠ [] then
      (⟨joinSp cur⟩ : String) :: wordLoop tok rest [w] wTok
    else wordLoop tok rest (cur ++ [w]) (curTok + wTok)

/-- `splitByTokenCount`. -/
def splitByTokenCount (tok : String → Nat) (text : String) : List String :=
  wordLoop tok (splitWsJS text.data) [] 0

/-- The sentence-packing loop of `splitOversizedParagraph`. -/
def sentenceLoop (tok : String → Nat) : List (List Char) → List Char → Nat → List String
  | [], cur, _ => if trimL cur ≠ [] then [(⟨trimL cur⟩ : String)] else []
  | s :: rest, cur, curTok =>
    let sTok := tok ⟨s⟩
    if sTok > MAX_CHUNK_TOKENS then
      (if cur ≠ [] then [(⟨trimL cur⟩ : String)] else []) ++
        splitByTokenCount tok ⟨s⟩ ++ sentenceLoop tok rest [] 0
    else if curTok + sTok > MAX_CHUNK_TOKENS then
      (if cur ≠ [] then [(⟨trimL cur⟩ : String)] else []) ++ sentenceLoop tok rest s sTok
    else sentenceLoop tok rest (cur ++ (if cur ≠ [] then [' '] else []) ++ s) (curTok + sTok)

/-- `splitOversizedParagraph`. -/
def splitOversizedParagraph (tok : String → Nat) (text : String) : List String :=
  if tok text ≤ MAX_CHUNK_TOKENS then [text]
  else
    let sentences := splitSentences text
    if sentences.length > 1 then sentenceLoop tok sentences [] 0
    else splitByTokenCount tok text

structure MdSection where
  title : String
  content : String
deriving Repr, DecidableEq

/-- `^(#{2,3})\s+(.+)$` on one line (the model assumes the header text sits
on the header's own line, the only shape the multiline regex matches in
practice); returns the trimmed title. -/
def headerParse (l : List Char) : Option (List Char) :=
  let hashes := l.takeWhile (fun c => c = '#')
  if hashes.length = 2 ∨ hashes.length = 3 then
    match l.drop hashes.length with
    | c :: cs => if isWs c ∧ cs ≠ [] then some (trimL ((c :: cs).dropWhile isWs)) else none
    | [] => none
  else none

def isBodyLine (l : List Char) : Bool := (headerParse l).isNone

/-- Lines of one section body: everything up to the next header line. -/
def takeBody (lines : List (List Char)) : List (List Char) := lines.takeWhile isBodyLine

def dropBody (lines : List (List Char)) : List (List Char) := lines.dropWhile isBodyLine

/-- Sections of the header split, starting at a header line. -/
def buildSections : List (List Char) → List MdSection
  | [] => []
  | line :: rest =>
    match headerParse line with
    | some title =>
      let body := trimL (joinSep '\n' (takeBody rest))
      let tail := buildSections (dropBody rest)
      if body = [] then tail else ⟨⟨title⟩, ⟨body⟩⟩ :: tail
    | none => buildSections rest
termination_by lines => lines.length
decreasing_by
  all_goals simp_wf
  all_goals exact Nat.lt_succ_of_le (length_dropWhile_le _ _)

/-- `splitByHeaders`. -/
def splitByHeaders (markdown : String) : List MdSection :=
  let lines := splitChar '\n' markdown.data
  let intro := takeBody lines
  let rest := dropBody lines
  if rest = [] then [⟨"Document", ⟨trimL markdown.data⟩⟩]
  else
    let introContent := trimL (joinSep '\n' intro)
    (if introContent = [] then [] else [(⟨"Introduction", ⟨introContent⟩⟩ : MdSection)]) ++
      buildSections rest

/-- `mergeSmallSections`: a section under `MIN_CHUNK_TOKENS` is appended to
the previous accumulated section (title kept); the first section is never
merged backward. -/
def mergeSmallSections (tok : String → Nat) (sections : List MdSection) : List MdSection :=
  sections.foldl
    (fun merged s =>
      if tok s.content < MIN_CHUNK_TOKENS ∧ merged ≠ [] then
        mapLast (fun prev => ⟨prev.title, ⟨prev.content.data ++ '\n' :: '\n' :: s.content.data⟩⟩) merged
      else merged ++ [s])
    []

def mkChunkTitle (title : String) (chunkNum : Nat) : String :=
  if chunkNum = 0 then title else ⟨title.data ++ " (continued)".data⟩

/-- The paragraph-packing loop of `splitLargeSection`, with the
`OVERLAP_TOKENS`-tail seeding of continuation chunks. -/
def packLoop (tok : String → Nat) (title : String) (startIndex : Nat) :
    List String → List Char → Nat → Nat → List ChunkResult
  | [], cur, curTok, chunkNum =>
    if trimL cur ≠ [] then
      [⟨mkChunkTitle title chunkNum, ⟨trimL cur⟩, tok ⟨cur⟩, startIndex + chunkNum⟩]
    else []
  | para :: rest, cur, curTok, chunkNum =>
    let paraTok := tok para
    if curTok + paraTok > MAX_CHUNK_TOKENS ∧ cur ≠ [] then
      ⟨mkChunkTitle title chunkNum, ⟨trimL cur⟩, curTok, startIndex + chunkNum⟩ ::
        (let ws := splitWsJS cur
         let overlap := ws.drop (ws.length - OVERLAP_TOKENS / 2)
         let cur2 := joinSp overlap ++ '\n' :: '\n' :: para.data
         packLoop tok title startIndex rest cur2 (tok ⟨cur2⟩) (chunkNum + 1))
    else
      packLoop tok title startIndex rest
        (cur ++ (if cur ≠ [] then ['\n', '\n'] else []) ++ para.data)
        (curTok + paraTok) chunkNum

/-- `splitLargeSection`: paragraph split, oversized-paragraph expansion,
greedy packing with overlap. -/
def splitLargeSection (tok : String → Nat) (title : String) (content : String)
    (startIndex : Nat) : List ChunkResult :=
  let paragraphs := splitByParagraphs content
  let expanded := paragraphs.flatMap (fun para =>
    if tok para > MAX_CHUNK_TOKENS then splitOversizedParagraph tok para else [para])
  packLoop tok title startIndex expanded [] 0 0

/-- The per-section loop of `chunkDocument`. -/
def buildChunks (tok : String → Nat) : List MdSection → Nat → List ChunkResult
  | [], _ => []
  | s :: rest, idx =>
    let tokens := tok s.content
    if tokens > MAX_CHUNK_TOKENS then
      let sub := splitLargeSection tok s.title s.content idx
      sub ++ buildChunks tok rest (idx + sub.length)
    else ⟨s.title, s.content, tokens, idx⟩ :: buildChunks tok rest (idx + 1)

/-- `chunkDocument`. -/
def chunkDocument (tok : String → Nat) (markdown : String) : List ChunkResult :=
  if trimL markdown.data = [] then []
  else buildChunks tok (mergeSmallSections tok (splitByHeaders markdown)) 0

/-- `getDocumentTokenCount`. -/
def getDocumentTokenCount (tok : String → Nat) (markdown : String) : Nat :=
  tok markdown

/-! ### Chunk index density (claim C4) -/

theorem packLoop_idx (tok : String → Nat) (title : String) (startIndex : Nat) :
    ∀ (paras : List String) (cur : List Char) (curTok chunkNum : Nat),
      (packLoop tok title startIndex paras cur curTok chunkNum).map ChunkResult.chunkIndex =
        List.range' (startIndex + chunkNum)
          (packLoop tok title startIndex paras cur curTok chunkNum).length := by
  intro paras
  induction paras with
  | nil =>
    intro cur curTok chunkNum
    simp only [packLoop]
    split
    · simp
    · simp
  | cons para rest ih =>
    intro cur curTok chunkNum
    simp only [packLoop]
    split
    · rw [List.map_cons, List.length_cons, ih, List.range'_succ]
      congr 2
    · exact ih _ _ _

theorem splitLargeSection_idx (tok : String → Nat) (title : String) (content : String)
    (startIndex : Nat) :
    (splitLargeSection tok title content startIndex).map ChunkResult.chunkIndex =
      List.range' startIndex (splitLargeSection tok title content startIndex).length := by
  unfold splitLargeSection
  simpa using packLoop_idx tok title startIndex _ [] 0 0

theorem buildChunks_idx (tok : String → Nat) :
    ∀ (sections : List MdSection) (idx : Nat),
      (buildChunks tok sections idx).map ChunkResult.chunkIndex =
        List.range' idx (buildChunks tok sections idx).length := by
  intro sections
  induction sections with
  | nil => intro idx; simp [buildChunks]
  | cons s rest ih =>
    intro idx
    simp only [buildChunks]
    split
    · rw [List.map_append, splitLargeSection_idx, ih, List.length_append]
      generalize (splitLargeSection tok s.title s.content idx).length = m
      generalize (buildChunks tok rest (idx + m)).length = n
      have h := List.range'_append idx m n 1
      simp only [one_mul] at h
      rw [Nat.add_comm m n]
      exact h
    · rw [List.map_cons, List.length_cons, ih, List.range'_succ]

/-! ### Word-count lemmas for the spec-modelled tokenizer (claim C5) -/

theorem wordsOf_ws_cons (c : Char) (l : List Char) (hc : isWs c = true) :
    wordsOf (c :: l) = wordsOf l := by
  cases l with
  | nil => simp [wordsOf, hc]
  | cons d cs => simp [wordsOf, hc]

theorem wordsOf_cons_ne_nil (d : Char) (cs : List Char) (hd : isWs d = false) :
    wordsOf (d :: cs) ≠ [] := by
  cases cs with
  | nil => simp [wordsOf, hd]
  | cons e es =>
    simp only [wordsOf, hd, Bool.false_eq_true, if_false]
    split <;> simp

theorem wordsOf_append_ws (c : Char) (hc : isWs c = true) :
    ∀ (a b : List Char), wordsOf (a ++ c :: b) = wordsOf a ++ wordsOf b := by
  intro a
  induction a using wordsOf.induct with
  | case1 =>
    intro b
    rw [List.nil_append, wordsOf_ws_cons c b hc, wordsOf]
    rfl
  | case2 x hx =>
    intro b
    show wordsOf (x :: c :: b) = wordsOf [x] ++ wordsOf b
    rw [wordsOf_ws_cons x _ hx, wordsOf_ws_cons c b hc]
    simp [wordsOf, hx]
  | case3 x hx =>
    intro b
    show wordsOf (x :: c :: b) = wordsOf [x] ++ wordsOf b
    have hx' : isWs x = false := by simpa using hx
    simp only [wordsOf, hx', Bool.false_eq_true, if_false, hc, if_true]
    simp [wordsOf_ws_cons c b hc, wordsOf, hx']
  | case4 x d cs hx ih =>
    intro b
    show wordsOf (x :: d :: (cs ++ c :: b)) = wordsOf (x :: d :: cs) ++ wordsOf b
    have ih' : wordsOf (d :: (cs ++ c :: b)) = wordsOf (d :: cs) ++ wordsOf b := ih b
    rw [wordsOf_ws_cons x _ hx, wordsOf_ws_cons x _ hx]
    exact ih'
  | case5 x d cs hx hd ih =>
    intro b
    show wordsOf (x :: d :: (cs ++ c :: b)) = wordsOf (x :: d :: cs) ++ wordsOf b
    have hx' : isWs x = false := by simpa using hx
    have ih' : wordsOf (d :: (cs ++ c :: b)) = wordsOf (d :: cs) ++ wordsOf b := ih b
    have h1 : wordsOf (x :: d :: (cs ++ c :: b)) = [x] :: wordsOf (d :: (cs ++ c :: b)) := by
      simp [wordsOf, hx', hd]
    have h2 : wordsOf (x :: d :: cs) = [x] :: wordsOf (d :: cs) := by
      simp [wordsOf, hx', hd]
    rw [h1, h2, ih', List.cons_append]
  | case6 x d cs hx hd ih =>
    intro b
    show wordsOf (x :: d :: (cs ++ c :: b)) = wordsOf (x :: d :: cs) ++ wordsOf b
    have hx' : isWs x = false := by simpa using hx
    have hd' : isWs d = false := by simpa using hd
    have ih' : wordsOf (d :: (cs ++ c :: b)) = wordsOf (d :: cs) ++ wordsOf b := ih b
    have h1 : wordsOf (x :: d :: (cs ++ c :: b)) =
        (x :: (wordsOf (d :: (cs ++ c :: b))).headI) :: (wordsOf (d :: (cs ++ c :: b))).tail := by
      simp [wordsOf, hx', hd']
    have h2 : wordsOf (x :: d :: cs) =
        (x :: (wordsOf (d :: cs)).headI) :: (wordsOf (d :: cs)).tail := by
      simp [wordsOf, hx', hd']
    obtain ⟨w, ws, hws⟩ : ∃ w ws, wordsOf (d :: cs) = w :: ws := by
      cases hcase : wordsOf (d :: cs) with
      | nil => exact absurd hcase (wordsOf_cons_ne_nil d cs hd')
      | cons w ws => exact ⟨w, ws, rfl⟩
    rw [h1, h2, ih', hws]
    simp

theorem wordsOf_all_ws (s : List Char) (h : ∀ x ∈ s, isWs x = true) :
    wordsOf s = [] := by
  induction s with
  | nil => rfl
  | cons c cs ih =>
    rw [wordsOf_ws_cons c cs (h c (by simp))]
    exact ih (fun x hx => h x (by simp [hx]))

theorem wordsOf_append_all_ws (a t : List Char) (h : ∀ x ∈ t, isWs x = true) :
    wordsOf (a ++ t) = wordsOf a := by
  cases t with
  | nil => simp
  | cons c t' =>
    rw [wordsOf_append_ws c (h c (by simp)) a t',
      wordsOf_all_ws t' (fun x hx => h x (by simp [hx])), List.append_nil]

theorem wordsOf_dropWhile (l : List Char) :
    wordsOf (l.dropWhile isWs) = wordsOf l := by
  induction l with
  | nil => rfl
  | cons c cs ih =>
    rw [List.dropWhile_cons]
    split
    · rename_i hc
      rw [ih, wordsOf_ws_cons c cs hc]
    · rfl

theorem wordsOf_trim (l : List Char) : wordsOf (trimL l) = wordsOf l := by
  unfold trimL
  have hdecomp : l.dropWhile isWs =
      ((l.dropWhile isWs).reverse.dropWhile isWs).reverse ++
        ((l.dropWhile isWs).reverse.takeWhile isWs).reverse := by
    conv_lhs => rw [← List.reverse_reverse (l.dropWhile isWs),
      ← List.takeWhile_append_dropWhile isWs (l.dropWhile isWs).reverse]
    rw [List.reverse_append]
  have hws : ∀ x ∈ ((l.dropWhile isWs).reverse.takeWhile isWs).reverse, isWs x = true := by
    intro x hx
    exact List.mem_takeWhile_imp (List.mem_reverse.mp hx)
  calc wordsOf ((l.dropWhile isWs).reverse.dropWhile isWs).reverse
      = wordsOf (((l.dropWhile isWs).reverse.dropWhile isWs).reverse ++
          ((l.dropWhile isWs).reverse.takeWhile isWs).reverse) :=
        (wordsOf_append_all_ws _ _ hws).symm
    _ = wordsOf (l.dropWhile isWs) := by rw [← hdecomp]
    _ = wordsOf l := wordsOf_dropWhile l

theorem wordsOf_word_eq (w : List Char) (hw : ∀ x ∈ w, isWs x = false) (hne : w ≠ []) :
    wordsOf w = [w] := by
  induction w using wordsOf.induct with
  | case1 => exact absurd rfl hne
  | case2 x hx => exact absurd (hw x (by simp)) (by simp [hx])
  | case3 x hx => simp [wordsOf, hw x (by simp)]
  | case4 x d cs hx ih => exact absurd (hw x (by simp)) (by simp [hx])
  | case5 x d cs hx hd ih => exact absurd (hw d (by simp)) (by simp [hd])
  | case6 x d cs hx hd ih =>
    have hx' : isWs x = false := by simpa using hx
    have hd' : isWs d = false := by simpa using hd
    have h2 := ih (fun y hy => hw y (List.mem_cons_of_mem x hy)) (by simp)
    simp [wordsOf, hx', hd', h2]

theorem wordsOf_word_len (w : List Char) (hw : ∀ x ∈ w, isWs x = false) :
    (wordsOf w).length ≤ 1 := by
  cases hcase : w with
  | nil => simp [wordsOf]
  | cons d cs =>
    rw [← hcase, wordsOf_word_eq w hw (by simp [hcase])]
    simp

theorem splitWsAux_ne_nil (b : Bool) (l : List Char) : splitWsAux b l ≠ [] := by
  induction l generalizing b with
  | nil => simp [splitWsAux]
  | cons c rest ih =>
    cases b <;> simp only [splitWsAux] <;> split <;> simp [ih]

theorem splitWsAux_wsFree (l : List Char) :
    ∀ (b : Bool) (p : List Char), p ∈ splitWsAux b l → ∀ c ∈ p, isWs c = false := by
  induction l with
  | nil =>
    intro b p hp c hc
    simp [splitWsAux] at hp
    subst hp
    simp at hc
  | cons x rest ih =>
    intro b p hp c hc
    cases b with
    | true =>
      simp only [splitWsAux] at hp
      split at hp
      · exact ih true p hp c hc
      · rename_i hx
        rcases List.mem_cons.mp hp with h | h
        · subst h
          rcases List.mem_cons.mp hc with h2 | h2
          · subst h2; simpa using hx
          · obtain ⟨q, qs, hq⟩ : ∃ q qs, splitWsAux false rest = q :: qs := by
              cases hcase : splitWsAux false rest with
              | nil => exact absurd hcase (splitWsAux_ne_nil false rest)
              | cons q qs => exact ⟨q, qs, rfl⟩
            rw [hq] at h2
            exact ih false q (by rw [hq]; simp) c h2
        · exact ih false p (List.tail_subset _ h) c hc
    | false =>
      simp only [splitWsAux] at hp
      split at hp
      · rcases List.mem_cons.mp hp with h | h
        · subst h; simp at hc
        · exact ih true p h c hc
      · rename_i hx
        rcases List.mem_cons.mp hp with h | h
        · subst h
          rcases List.mem_cons.mp hc with h2 | h2
          · subst h2; simpa using hx
          · obtain ⟨q, qs, hq⟩ : ∃ q qs, splitWsAux false rest = q :: qs := by
              cases hcase : splitWsAux false rest with
              | nil => exact absurd hcase (splitWsAux_ne_nil false rest)
              | cons q qs => exact ⟨q, qs, rfl⟩
            rw [hq] at h2
            exact ih false q (by rw [hq]; simp) c h2
        · exact ih false p (List.tail_subset _ h) c hc

theorem splitWsJS_wsFree (l : List Char) :
    ∀ p ∈ splitWsJS l, ∀ c ∈ p, isWs c = false :=
  fun p hp => splitWsAux_wsFree l false p hp

theorem joinSp_cons (w : List Char) (ps : List (List Char)) (h : ps ≠ []) :
    joinSp (w :: ps) = w ++ ' ' :: joinSp ps := by
  cases ps with
  | nil => exact absurd rfl h
  | cons q qs => rfl

theorem wordsOf_joinSp_le (ps : List (List Char))
    (h : ∀ w ∈ ps, ∀ c ∈ w, isWs c = false) :
    (wordsOf (joinSp ps)).length ≤ ps.length := by
  induction ps with
  | nil => simp [joinSp, joinSep, wordsOf]
  | cons w ps' ih =>
    by_cases hps' : ps' = []
    · subst hps'
      have : joinSp [w] = w := rfl
      rw [this]
      simpa using wordsOf_word_len w (h w (by simp))
    · rw [joinSp_cons w ps' hps', wordsOf_append_ws ' ' (by simp [isWs]) w (joinSp ps'),
        List.length_append, List.length_cons]
      have h1 := wordsOf_word_len w (h w (by simp))
      have h2 := ih (fun q hq => h q (by simp [hq]))
      omega

theorem joinSp_append_singleton (cur : List (List Char)) (w : List Char) (h : cur ≠ []) :
    joinSp (cur ++ [w]) = joinSp cur ++ ' ' :: w := by
  induction cur with
  | nil => exact absurd rfl h
  | cons c0 cur' ih =>
    by_cases hcur' : cur' = []
    · subst hcur'
      rfl
    · rw [List.cons_append, joinSp_cons c0 (cur' ++ [w]) (by simp),
        joinSp_cons c0 cur' hcur', ih hcur']
      simp

theorem tokWords_mk (l : List Char) : tokWords ⟨l⟩ = (wordsOf l).length := rfl

theorem tokWords_append_ws (a b : List Char) (c : Char) (hc : isWs c = true) :
    tokWords ⟨a ++ c :: b⟩ = tokWords ⟨a⟩ + tokWords ⟨b⟩ := by
  rw [tokWords_mk, tokWords_mk, tokWords_mk, wordsOf_append_ws c hc a b, List.length_append]

theorem tokWords_ws_cons (c : Char) (l : List Char) (hc : isWs c = true) :
    tokWords ⟨c :: l⟩ = tokWords ⟨l⟩ := by
  rw [tokWords_mk, tokWords_mk, wordsOf_ws_cons c l hc]

theorem tokWords_trim (l : List Char) : tokWords ⟨trimL l⟩ = tokWords ⟨l⟩ := by
  rw [tokWords_mk, tokWords_mk, wordsOf_trim]

theorem tokWords_word_space (w : List Char) (hw : ∀ c ∈ w, isWs c = false) :
    tokWords ⟨w ++ [' ']⟩ = (wordsOf w).length := by
  rw [tokWords_mk, wordsOf_append_all_ws w [' '] (by intro x hx; simp at hx; subst hx; rfl)]

/-! ### Chunk size bounds under the word tokenizer (claim C5) -/

theorem wordLoop_bound :
    ∀ (words' : List (List Char)) (cur : List (List Char)) (curTok : Nat),
      (∀ w ∈ words', ∀ c ∈ w, isWs c = false) →
      (∀ w ∈ cur, ∀ c ∈ w, isWs c = false) →
      curTok = tokWords ⟨joinSp cur⟩ →
      curTok ≤ MAX_CHUNK_TOKENS →
      ∀ s ∈ wordLoop tokWords words' cur curTok, tokWords s ≤ MAX_CHUNK_TOKENS := by
  intro words'
  induction words' with
  | nil =>
    intro cur curTok hws hcur hinv hbound s hs
    simp only [wordLoop] at hs
    split at hs
    · rw [List.mem_singleton] at hs
      subst hs
      rw [← hinv]
      exact hbound
    · simp at hs
  | cons w rest ih =>
    intro cur curTok hws hcur hinv hbound s hs
    simp only [wordLoop] at hs
    split at hs
    · rcases List.mem_cons.mp hs with rfl | hs'
      · rw [← hinv]
        exact hbound
      · refine ih [w] (tokWords ⟨w ++ [' ']⟩)
          (fun q hq => hws q (List.mem_cons_of_mem w hq))
          (by
            intro q hq
            rw [List.mem_singleton] at hq
            rw [hq]
            exact hws w (List.mem_cons_self w rest)) ?_ ?_ s hs'
        · rw [tokWords_word_space w (hws w (List.mem_cons_self w rest))]
          rfl
        · rw [tokWords_word_space w (hws w (List.mem_cons_self w rest))]
          exact le_trans (wordsOf_word_len w (hws w (List.mem_cons_self w rest))) (by decide)
    · rename_i hno
      refine ih (cur ++ [w]) (curTok + tokWords ⟨w ++ [' ']⟩)
        (fun q hq => hws q (List.mem_cons_of_mem w hq))
        (by
          intro q hq
          rcases List.mem_append.mp hq with h | h
          · exact hcur q h
          · rw [List.mem_singleton] at h
            rw [h]
            exact hws w (List.mem_cons_self w rest)) ?_ ?_ s hs
      · by_cases hcnil : cur = []
        · subst hcnil
          have h0 : curTok = 0 := by simpa [joinSp, joinSep, tokWords_mk, wordsOf] using hinv
          rw [h0, Nat.zero_add, tokWords_word_space w (hws w (List.mem_cons_self w rest))]
          rfl
        · rw [tokWords_word_space w (hws w (List.mem_cons_self w rest)),
            joinSp_append_singleton cur w hcnil,
            tokWords_append_ws (joinSp cur) w ' ' rfl, ← hinv, tokWords_mk w]
      · by_cases hcnil : cur = []
        · subst hcnil
          have h0 : curTok = 0 := by simpa [joinSp, joinSep, tokWords_mk, wordsOf] using hinv
          rw [h0, Nat.zero_add, tokWords_word_space w (hws w (List.mem_cons_self w rest))]
          exact le_trans (wordsOf_word_len w (hws w (List.mem_cons_self w rest))) (by decide)
        · rcases Decidable.not_and_iff_or_not.mp hno with h | h
          · exact Nat.le_of_not_lt h
          · exact absurd (by simpa using hcnil) (by simpa using h)

theorem splitByTokenCount_bound (text : String) :
    ∀ s ∈ splitByTokenCount tokWords text, tokWords s ≤ MAX_CHUNK_TOKENS := by
  intro s hs
  exact wordLoop_bound (splitWsJS text.data) [] 0 (splitWsJS_wsFree text.data)
    (by simp) rfl (Nat.zero_le _) s hs

theorem sentenceLoop_bound :
    ∀ (sents : List (List Char)) (cur : List Char) (curTok : Nat),
      curTok = tokWords ⟨cur⟩ →
      curTok ≤ MAX_CHUNK_TOKENS →
      ∀ s ∈ sentenceLoop tokWords sents cur curTok, tokWords s ≤ MAX_CHUNK_TOKENS := by
  intro sents
  induction sents with
  | nil =>
    intro cur curTok hinv hbound s hs
    simp only [sentenceLoop] at hs
    split at hs
    · rw [List.mem_singleton] at hs
      subst hs
      rw [tokWords_trim, ← hinv]
      exact hbound
    · simp at hs
  | cons sen rest ih =>
    intro cur curTok hinv hbound s hs
    simp only [sentenceLoop] at hs
    split at hs
    · rcases List.mem_append.mp hs with hs1 | hs2
      · rcases List.mem_append.mp hs1 with ha | hb
        · split at ha
          · rw [List.mem_singleton] at ha
            subst ha
            rw [tokWords_trim, ← hinv]
            exact hbound
          · simp at ha
        · exact splitByTokenCount_bound _ s hb
      · exact ih [] 0 rfl (Nat.zero_le _) s hs2
    · rename_i hbig
      split at hs
      · rcases List.mem_append.mp hs with ha | hs2
        · split at ha
          · rw [List.mem_singleton] at ha
            subst ha
            rw [tokWords_trim, ← hinv]
            exact hbound
          · simp at ha
        · exact ih sen (tokWords ⟨sen⟩) rfl (Nat.le_of_not_lt hbig) s hs2
      · rename_i hfits
        refine ih _ (curTok + tokWords ⟨sen⟩) ?_ (Nat.le_of_not_lt hfits) s hs
        by_cases hcnil : cur = []
        · subst hcnil
          have h0 : curTok = 0 := by simpa [tokWords_mk, wordsOf] using hinv
          simp [h0, tokWords_mk]
        · have hsep : (cur ++ (if cur ≠ [] then [' '] else []) ++ sen) = cur ++ ' ' :: sen := by
            simp [hcnil]
          rw [hsep, tokWords_append_ws _ _ ' ' rfl, ← hinv]

theorem splitOversizedParagraph_bound (text : String) :
    ∀ s ∈ splitOversizedParagraph tokWords text, tokWords s ≤ MAX_CHUNK_TOKENS := by
  intro s hs
  simp only [splitOversizedParagraph] at hs
  split at hs
  · rename_i hle
    rw [List.mem_singleton] at hs
    subst hs
    exact hle
  · split at hs
    · exact sentenceLoop_bound (splitSentences text) [] 0 rfl (Nat.zero_le _) s hs
    · exact splitByTokenCount_bound text s hs

theorem packLoop_bound (title : String) (startIndex : Nat) :
    ∀ (paras : List String) (cur : List Char) (curTok chunkNum : Nat),
      (∀ p ∈ paras, tokWords p ≤ MAX_CHUNK_TOKENS) →
      curTok = tokWords ⟨cur⟩ →
      curTok ≤ MAX_CHUNK_TOKENS + OVERLAP_TOKENS / 2 →
      ∀ c ∈ packLoop tokWords title startIndex paras cur curTok chunkNum,
        c.tokenCount ≤ MAX_CHUNK_TOKENS + OVERLAP_TOKENS / 2 := by
  intro paras
  induction paras with
  | nil =>
    intro cur curTok chunkNum hp hinv hbound c hc
    simp only [packLoop] at hc
    split at hc
    · rw [List.mem_singleton] at hc
      subst hc
      show tokWords ⟨cur⟩ ≤ _
      rw [← hinv]
      exact hbound
    · simp at hc
  | cons para rest ih =>
    intro cur curTok chunkNum hp hinv hbound c hc
    simp only [packLoop] at hc
    split at hc
    · rcases List.mem_cons.mp hc with rfl | hc'
      · exact hbound
      · refine ih _ _ _ (fun q hq => hp q (List.mem_cons_of_mem para hq)) rfl ?_ c hc'
        have hod : (splitWsJS cur).drop ((splitWsJS cur).length - OVERLAP_TOKENS / 2) ++ [] =
            (splitWsJS cur).drop ((splitWsJS cur).length - OVERLAP_TOKENS / 2) := by simp
        set overlap := (splitWsJS cur).drop ((splitWsJS cur).length - OVERLAP_TOKENS / 2) with hov
        have hlen : overlap.length ≤ OVERLAP_TOKENS / 2 := by
          rw [hov, List.length_drop]
          omega
        have hfree : ∀ w ∈ overlap, ∀ ch ∈ w, isWs ch = false := by
          intro w hw
          exact splitWsJS_wsFree cur w (List.drop_subset _ _ hw)
        have h1 : tokWords ⟨joinSp overlap ++ '\n' :: '\n' :: para.data⟩ =
            tokWords ⟨joinSp overlap⟩ + tokWords para := by
          rw [tokWords_append_ws _ _ '\n' rfl, tokWords_ws_cons '\n' _ rfl]
        rw [h1]
        have h2 : tokWords ⟨joinSp overlap⟩ ≤ OVERLAP_TOKENS / 2 :=
          le_trans (wordsOf_joinSp_le overlap hfree) hlen
        have h3 : tokWords para ≤ MAX_CHUNK_TOKENS := hp para (List.mem_cons_self para rest)
        omega
    · rename_i hno
      refine ih _ _ _ (fun q hq => hp q (List.mem_cons_of_mem para hq)) ?_ ?_ c hc
      · by_cases hcnil : cur = []
        · subst hcnil
          have h0 : curTok = 0 := by simpa [tokWords_mk, wordsOf] using hinv
          rw [h0, Nat.zero_add]
          rfl
        · have hsep : (cur ++ (if cur ≠ [] then ['\n', '\n'] else []) ++ para.data) =
              cur ++ '\n' :: '\n' :: para.data := by
            simp [hcnil]
          rw [hsep, tokWords_append_ws cur ('\n' :: para.data) '\n' rfl,
            tokWords_ws_cons '\n' para.data rfl, ← hinv]
      · by_cases hcnil : cur = []
        · subst hcnil
          have h0 : curTok = 0 := by simpa [tokWords_mk, wordsOf] using hinv
          rw [h0, Nat.zero_add]
          exact le_trans (hp para (List.mem_cons_self para rest)) (Nat.le_add_right _ _)
        · rcases Decidable.not_and_iff_or_not.mp hno with h | h
          · exact le_trans (Nat.le_of_not_lt h) (Nat.le_add_right _ _)
          · exact absurd (by simpa using hcnil) (by simpa using h)

theorem splitLargeSection_bound (title content : String) (startIndex : Nat) :
    ∀ c ∈ splitLargeSection tokWords title content startIndex,
      c.tokenCount ≤ MAX_CHUNK_TOKENS + OVERLAP_TOKENS / 2 := by
  intro c hc
  unfold splitLargeSection at hc
  refine packLoop_bound title startIndex _ [] 0 0 ?_ rfl (Nat.zero_le _) c hc
  intro p hp
  rcases List.mem_flatMap.mp hp with ⟨para, hpara, hmem⟩
  split at hmem
  · exact splitOversizedParagraph_bound para p hmem
  · rename_i hle
    rw [List.mem_singleton] at hmem
    subst hmem
    exact Nat.le_of_not_lt hle

theorem buildChunks_bound :
    ∀ (sections : List MdSection) (idx : Nat) (c : ChunkResult),
      c ∈ buildChunks tokWords sections idx →
      c.tokenCount ≤ MAX_CHUNK_TOKENS + OVERLAP_TOKENS / 2 := by
  intro sections
  induction sections with
  | nil =>
    intro idx c hc
    simp [buildChunks] at hc
  | cons s rest ih =>
    intro idx c hc
    simp only [buildChunks] at hc
    split at hc
    · rcases List.mem_append.mp hc with h | h
      · exact splitLargeSection_bound _ _ _ c h
      · exact ih _ c h
    · rename_i hle
      rcases List.mem_cons.mp hc with rfl | h
      · exact le_trans (Nat.le_of_not_lt hle) (Nat.le_add_right _ _)
      · exact ih _ c h

/-! ## Concrete runs used by the claim witnesses and counterexamples -/

/-- Page A of a 2-cycle: it links to page B. -/
def pcA : PageContent := ⟨"https://x/a", "A", "", [⟨"https://x/b", "budget", ""⟩]⟩

/-- Page B of a 2-cycle: it links back to page A. -/
def pcB : PageContent := ⟨"https://x/b", "B", "", [⟨"https://x/a", "budget", ""⟩]⟩

/-- Environment of the 2-cycle crawl: two pages linking to each other, an
identity pre-filter and a classifier that is never consulted
(`useLlmRanking = false`). -/
def envW : CrawlEnv :=
  ⟨fun u => if u = "https://x/a" then some pcA else if u = "https://x/b" then some pcB else none,
   fun ls _ => ls, fun _ => none⟩

def cfgW : CrawlerConfig :=
  ⟨2, 10, mkRat 3 10, 0, 1, false, DEFAULT_RANKER_CONFIG, true⟩

def itemA : QueueItem := ⟨"https://x/a", 0, none, none⟩
def itemB : QueueItem := ⟨"https://x/b", 1, some "https://x/a", some (mkRat 1 2)⟩
def rkB : RankedLink := ⟨"https://x/b", "budget", "", mkRat 1 2, .other, "Heuristic match"⟩
def rkA : RankedLink := ⟨"https://x/a", "budget", "", mkRat 1 2, .other, "Heuristic match"⟩

/-- State after fetching page A and enqueueing the link to B. -/
def st1W : LoopState :=
  ⟨[itemB], ["https://x/a"], [pcA], [rkB], [], [itemA], [("https://x/a", 0)], [(0, 1)]⟩

/-- Final state of the 2-cycle crawl: each page fetched exactly once (the
back-link from B to A is dropped because A is already in `visited`). -/
def st2W : LoopState :=
  ⟨[], ["https://x/a", "https://x/b"], [pcA, pcB], [rkB, rkA], [], [itemA, itemB],
   [("https://x/a", 0), ("https://x/b", 1)], [(0, 1)]⟩

/-- Page b of the duplicate-fetch run: it links to `https://x/a//` and to
`https://x/a`, two spellings of the same resource. -/
def pcB1 : PageContent :=
  ⟨"https://x/b", "B", "", [⟨"https://x/a//", "budget", ""⟩, ⟨"https://x/a", "budget", ""⟩]⟩

def pcA1 : PageContent := ⟨"https://x/a/", "A1", "", []⟩
def pcA2 : PageContent := ⟨"https://x/a", "A2", "", []⟩

def envC1 : CrawlEnv :=
  ⟨fun u => if u = "https://x/b" then some pcB1 else if u = "https://x/a/" then some pcA1
    else if u = "https://x/a" then some pcA2 else none,
   fun ls _ => ls, fun _ => none⟩

def itemB0 : QueueItem := ⟨"https://x/b", 0, none, none⟩
def itemA1 : QueueItem := ⟨"https://x/a//", 1, some "https://x/b", some (mkRat 1 2)⟩
def itemA2 : QueueItem := ⟨"https://x/a", 1, some "https://x/b", some (mkRat 1 2)⟩
def rkA1 : RankedLink := ⟨"https://x/a//", "budget", "", mkRat 1 2, .other, "Heuristic match"⟩
def rkA2 : RankedLink := ⟨"https://x/a", "budget", "", mkRat 1 2, .other, "Heuristic match"⟩

def stC1 : LoopState :=
  ⟨[itemA1, itemA2], ["https://x/b"], [pcB1], [rkA1, rkA2], [], [itemB0],
   [("https://x/b", 0)], [(0, 1), (0, 1)]⟩

def stC2 : LoopState :=
  ⟨[itemA2], ["https://x/b", "https://x/a/"], [pcB1, pcA1], [rkA1, rkA2], [], [itemB0, itemA1],
   [("https://x/b", 0), ("https://x/a/", 1)], [(0, 1), (0, 1)]⟩

/-- Final state of the duplicate-fetch run: both `https://x/a/` and
`https://x/a` were fetched, and their normalized forms coincide. -/
def stC3 : LoopState :=
  ⟨[], ["https://x/b", "https://x/a/", "https://x/a"], [pcB1, pcA1, pcA2], [rkA1, rkA2], [],
   [itemB0, itemA1, itemA2],
   [("https://x/b", 0), ("https://x/a/", 1), ("https://x/a", 1)], [(0, 1), (0, 1)]⟩

/-- The scenario-D link of claim C8. -/
def scenarioDLink : ExtractedLink := ⟨"https://city.gov/docs", "FY2025 RFP for IT Services", ""⟩

/-- A link whose batch the classifier will fail on (claim C6). -/
def linkB6 : ExtractedLink := ⟨"https://x/doc", "Budget", ""⟩

/-- A one-word-per-`'w'` paragraph of `n` words. -/
def C5para (n : Nat) : List Char := joinSp (List.replicate n ['w'])

/-- Three paragraphs of 25, 990 and 1 words: each paragraph is far below
`MAX_CHUNK_TOKENS`, yet the overlap-seeded continuation chunk is not. -/
def C5doc : String := ⟨C5para 25 ++ '\n' :: '\n' :: (C5para 990 ++ '\n' :: '\n' :: C5para 1)⟩

/-- The 2-cycle crawl evaluated step by step through the loop equations. -/
theorem crawlW_eq : crawlState envW "https://x/a" cfgW = some st2W := by
  have h0 : crawlState envW "https://x/a" cfgW =
      some (crawlLoop envW cfgW "x".data (initState "https://x/a")) := rfl
  have h1 : crawlLoop envW cfgW "x".data (initState "https://x/a") =
      crawlLoop envW cfgW "x".data st1W :=
    crawlLoop_fetch_links envW cfgW "x".data (initState "https://x/a") itemA [] pcA
      (by decide) (by decide) (by decide) (by decide) (by decide) (by decide)
  have h2 : crawlLoop envW cfgW "x".data st1W = crawlLoop envW cfgW "x".data st2W :=
    crawlLoop_fetch_links envW cfgW "x".data st1W itemB [] pcB (by decide) (by decide)
      (by decide) (by decide) (by decide) (by decide)
  have h3 : crawlLoop envW cfgW "x".data st2W = st2W :=
    crawlLoop_stop envW cfgW "x".data st2W (by decide)
  rw [h0, h1, h2, h3]

/-- The duplicate-fetch crawl evaluated step by step. -/
theorem crawlC1_eq : crawlState envC1 "https://x/b" cfgW = some stC3 := by
  have h0 : crawlState envC1 "https://x/b" cfgW =
      some (crawlLoop envC1 cfgW "x".data (initState "https://x/b")) := rfl
  have h1 : crawlLoop envC1 cfgW "x".data (initState "https://x/b") =
      crawlLoop envC1 cfgW "x".data stC1 :=
    crawlLoop_fetch_links envC1 cfgW "x".data (initState "https://x/b") itemB0 [] pcB1
      (by decide) (by decide) (by decide) (by decide) (by decide) (by decide)
  have h2 : crawlLoop envC1 cfgW "x".data stC1 = crawlLoop envC1 cfgW "x".data stC2 :=
    crawlLoop_fetch_nolinks envC1 cfgW "x".data stC1 itemA1 [itemA2] pcA1 (by decide)
      (by decide) (by decide) (by decide) (by decide) (by decide)
  have h3 : crawlLoop envC1 cfgW "x".data stC2 = crawlLoop envC1 cfgW "x".data stC3 :=
    crawlLoop_fetch_nolinks envC1 cfgW "x".data stC2 itemA2 [] pcA2 (by decide) (by decide)
      (by decide) (by decide) (by decide) (by decide)
  have h4 : crawlLoop envC1 cfgW "x".data stC3 = stC3 :=
    crawlLoop_stop envC1 cfgW "x".data stC3 (by decide)
  rw [h0, h1, h2, h3, h4]

/-- The extractor contract holds for the 2-cycle environment. -/
theorem envW_contract : ∀ u pc, envW.fetch u = some pc → pc.url = u := by
  intro u pc h
  simp only [envW] at h
  split at h
  · rename_i hu
    injection h with h2
    subst h2
    rw [hu]
    rfl
  · split at h
    · rename_i hu
      injection h with h2
      subst h2
      rw [hu]
      rfl
    · cases h

/-! ## The claims -/

/-- C1 (corrected).  Under the extractor contract — a fetched page reports
the URL it was fetched from — every successful crawl run fetches each URL at
most once in the exact normalized form produced at dequeue time: the fetch
log's URL column is duplicate-free, and so are the page URLs (a 2-cycle is
fetched once per page, see the witness).  The claim as written — that no two
pages share a normalized URL — additionally normalizes the already-fetched
URLs once more, and is refuted by the counterexample: `normalizeUrl` is not
idempotent, so `https://x/a/` and `https://x/a` are both fetched even though
they normalize to the same string. -/
theorem crawl_fetch_at_most_once (env : CrawlEnv) (cfg : CrawlerConfig)
    (seedUrl : String) (st : LoopState)
    (Henv : ∀ u pc, env.fetch u = some pc → pc.url = u)
    (hst : crawlState env seedUrl cfg = some st) :
    (st.fetchLog.map Prod.fst).Nodup ∧ (st.pages.map PageContent.url).Nodup := by
  obtain ⟨sd, -, hloop⟩ := crawlState_some env seedUrl cfg st hst
  have hinv := crawlLoop_inv env cfg sd Henv (initState seedUrl)
    (initState_CrawlInv cfg seedUrl)
  rw [hloop] at hinv
  obtain ⟨h1, -, h3, -, -, -, -, -⟩ := hinv
  exact ⟨h1, by rw [h3]; exact h1⟩

/-- Witness for C1: the 2-cycle crawl fetches each of the two pages exactly
once. -/
theorem crawl_fetch_at_most_once_witness :
    (st2W.fetchLog.map Prod.fst).Nodup ∧ (st2W.pages.map PageContent.url).Nodup :=
  crawl_fetch_at_most_once envW cfgW "https://x/a" st2W envW_contract crawlW_eq

/-- Counterexample to C1 as literally stated: a crawl whose returned pages
contain two entries with the same normalized URL (`https://x/a//` normalizes
to `https://x/a/`, which is fetched, and normalizes again to `https://x/a`,
which is also fetched). -/
theorem crawl_normalized_pages_duplicate_counterexample :
    ∃ res, crawl envC1 "https://x/b" cfgW = some res ∧
      ¬ (res.pages.map (fun p => normalizeUrl p.url)).Nodup := by
  refine ⟨⟨stC3.pages, stC3.rankedLinks, 3, 2, 0, []⟩, ?_, by decide⟩
  rw [crawl, crawlC1_eq]
  decide

/-- C2.  In every successful crawl run, no frontier item is dequeued with
depth above `maxDepth`, every fetch happens at depth at most `maxDepth`,
links are only enqueued at `depth + 1` from pages strictly below `maxDepth`,
and the seed enters the frontier at depth 0. -/
theorem crawl_depth_bounds (env : CrawlEnv) (cfg : CrawlerConfig)
    (seedUrl : String) (st : LoopState)
    (hst : crawlState env seedUrl cfg = some st) :
    (∀ it ∈ st.popped, it.depth ≤ cfg.maxDepth) ∧
    (∀ e ∈ st.fetchLog, e.2 ≤ cfg.maxDepth) ∧
    (∀ pr ∈ st.enqueueLog, pr.2 = pr.1 + 1 ∧ pr.1 < cfg.maxDepth) ∧
    (∀ it ∈ (initState seedUrl).queue, it.depth = 0) := by
  obtain ⟨sd, -, hloop⟩ := crawlState_some env seedUrl cfg st hst
  have hinv := crawlLoop_depth_inv env cfg sd (initState seedUrl)
    (initState_DepthInv cfg seedUrl)
  rw [hloop] at hinv
  obtain ⟨-, h2, h3, h4, -⟩ := hinv
  refine ⟨h2, h3, h4, ?_⟩
  intro it hit
  have h1 : it = ⟨normalizeUrl seedUrl, 0, none, none⟩ := by simpa [initState] using hit
  rw [h1]

/-- Witness for C2 on the 2-cycle run. -/
theorem crawl_depth_bounds_witness :
    (∀ it ∈ st2W.popped, it.depth ≤ cfgW.maxDepth) ∧
    (∀ e ∈ st2W.fetchLog, e.2 ≤ cfgW.maxDepth) ∧
    (∀ pr ∈ st2W.enqueueLog, pr.2 = pr.1 + 1 ∧ pr.1 < cfgW.maxDepth) ∧
    (∀ it ∈ (initState "https://x/a").queue, it.depth = 0) :=
  crawl_depth_bounds envW cfgW "https://x/a" st2W crawlW_eq

/-- C3.  Termination is witnessed by `crawlLoop` being a total Lean function
(well-founded recursion on the pair `(maxPages - pages, queue length)`), so a
crawl terminates on every input, including cyclic link graphs; moreover every
successful run returns at most `maxPages` pages, and the loop stops exactly
at a state where the frontier is empty or the page budget is reached. -/
theorem crawl_bounded_and_exit (env : CrawlEnv) (cfg : CrawlerConfig)
    (seedUrl : String) (st : LoopState)
    (hst : crawlState env seedUrl cfg = some st) :
    st.pages.length ≤ cfg.maxPages ∧
      (st.queue = [] ∨ cfg.maxPages ≤ st.pages.length) := by
  obtain ⟨sd, -, hloop⟩ := crawlState_some env seedUrl cfg st hst
  have hinv := crawlLoop_depth_inv env cfg sd (initState seedUrl)
    (initState_DepthInv cfg seedUrl)
  have hexit := crawlLoop_exit env cfg sd (initState seedUrl)
  rw [hloop] at hinv hexit
  exact ⟨hinv.2.2.2.2, hexit⟩

/-- Witness for C3 on the 2-cycle run (which, being cyclic, would loop
forever without the `visited` set). -/
theorem crawl_bounded_and_exit_witness :
    st2W.pages.length ≤ cfgW.maxPages ∧
      (st2W.queue = [] ∨ cfgW.maxPages ≤ st2W.pages.length) :=
  crawl_bounded_and_exit envW cfgW "https://x/a" st2W crawlW_eq

/-- C4.  For every tokenizer and every markdown input, the chunks returned by
`chunkDocument` carry `chunkIndex` values that are exactly `0 .. n-1` in
output order — dense, zero-based and strictly increasing across the whole
document, including across the sub-chunks produced by `splitLargeSection`. -/
theorem chunkDocument_chunkIndex_dense (tok : String → Nat) (markdown : String) :
    (chunkDocument tok markdown).map ChunkResult.chunkIndex =
      List.range (chunkDocument tok markdown).length := by
  unfold chunkDocument
  split
  · rfl
  · rw [buildChunks_idx, List.range_eq_range']

/-- C5 (corrected).  Under the spec-modelled word tokenizer `tokWords` (the
real `gpt-tokenizer` is external to the repository), every chunk of
`chunkDocument` is bounded by `MAX_CHUNK_TOKENS + OVERLAP_TOKENS / 2`
(= 1025), not by `MAX_CHUNK_TOKENS` as claimed: a continuation chunk is
seeded with up to 25 overlap words before its first paragraph is added, and
that seed is not counted against the budget when the chunk closes.  The
counterexample exhibits a 1015-token chunk although every paragraph of the
input is far below 1000 tokens, so the claim's exception for unbreakable
atomic units does not apply. -/
theorem chunkDocument_tokenCount_bound (markdown : String) (c : ChunkResult)
    (hc : c ∈ chunkDocument tokWords markdown) :
    c.tokenCount ≤ MAX_CHUNK_TOKENS + OVERLAP_TOKENS / 2 := by
  unfold chunkDocument at hc
  split at hc
  · simp at hc
  · exact buildChunks_bound _ 0 c hc

/-- Witness for the corrected C5 bound on a small document. -/
theorem chunkDocument_tokenCount_bound_witness :
    (⟨"Document", "hello world", 2, 0⟩ : ChunkResult) ∈ chunkDocument tokWords "hello world" ∧
      (⟨"Document", "hello world", 2, 0⟩ : ChunkResult).tokenCount ≤
        MAX_CHUNK_TOKENS + OVERLAP_TOKENS / 2 :=
  ⟨by decide, chunkDocument_tokenCount_bound "hello world"
    ⟨"Document", "hello world", 2, 0⟩ (by decide)⟩

set_option maxRecDepth 4000000 in
/-- Counterexample to C5 as literally stated: all three paragraphs of
`C5doc` are at most 1000 tokens (25, 990 and 1), yet the middle chunk that
`chunkDocument` returns has `tokenCount = 1015 > MAX_CHUNK_TOKENS`, because
it was seeded with the 25-word overlap tail of the previous chunk. -/
theorem chunkDocument_tokenCount_counterexample :
    (∀ p ∈ splitByParagraphs C5doc, tokWords p ≤ MAX_CHUNK_TOKENS) ∧
      (chunkDocument tokWords C5doc).map ChunkResult.tokenCount = [25, 1015, 26] ∧
      ∃ c ∈ chunkDocument tokWords C5doc, MAX_CHUNK_TOKENS < c.tokenCount := by
  decide

/-- C6.  If the classification service throws on every batch, `rankLinks`
still returns (it is a total function; the `catch` branch of `rankBatch` is
taken) one entry per input link, each carrying the fixed conservative default
score 0.1, category `other` and rationale "Error during ranking". -/
theorem rankLinks_fail_open (svc : ClassifierOracle) (links : List ExtractedLink)
    (cfg : RankerConfig) (hsvc : ∀ batch, svc batch = none)
    (hb : cfg.batchSize ≠ 0) (hne : links ≠ []) :
    rankLinks svc links cfg =
        links.map (fun l => mkRanked l (mkRat 1 10) LinkCategory.other "Error during ranking") ∧
      (rankLinks svc links cfg).length = links.length ∧
      ∀ r ∈ rankLinks svc links cfg,
        r.relevanceScore = mkRat 1 10 ∧ r.category = LinkCategory.other := by
  have h := rankLinks_fail svc hsvc links cfg hb hne
  refine ⟨h, by rw [h, List.length_map], ?_⟩
  intro r hr
  rw [h] at hr
  rcases List.mem_map.mp hr with ⟨l, -, hl⟩
  subst hl
  exact ⟨rfl, rfl⟩

/-- Witness for C6 with the always-failing classifier on one link. -/
theorem rankLinks_fail_open_witness :
    rankLinks failingClassifier [linkB6] DEFAULT_RANKER_CONFIG =
        [linkB6].map
          (fun l => mkRanked l (mkRat 1 10) LinkCategory.other "Error during ranking") ∧
      (rankLinks failingClassifier [linkB6] DEFAULT_RANKER_CONFIG).length = [linkB6].length ∧
      ∀ r ∈ rankLinks failingClassifier [linkB6] DEFAULT_RANKER_CONFIG,
        r.relevanceScore = mkRat 1 10 ∧ r.category = LinkCategory.other :=
  rankLinks_fail_open failingClassifier [linkB6] DEFAULT_RANKER_CONFIG
    (fun _ => rfl) (by decide) (by decide)

/-- C7 (corrected).  Normalization — drop the fragment, drop the known
tracking parameters, strip one trailing slash off a non-root path — is
idempotent exactly on inputs whose scrubbed serialization does not end in a
double slash (`normIdemOK`).  On a well-formed URL whose path ends in `//`
each pass strips a single slash, so the unconditional claim fails; see the
counterexample. -/
theorem normalizeUrl_conditional_idem (s : String) (h : normIdemOK s = true) :
    normalizeUrl (normalizeUrl s) = normalizeUrl s := by
  have hl : normalizeList (normalizeList s.data) = normalizeList s.data := by
    apply normalizeList_idem
    intro u hu
    unfold normIdemOK at h
    rw [hu] at h
    simpa using h
  show (⟨normalizeList (normalizeList s.data)⟩ : String) = ⟨normalizeList s.data⟩
  rw [hl]

/-- Witness for C7 on a URL with a fragment, a tracking parameter and a
`www.` host. -/
theorem normalizeUrl_conditional_idem_witness :
    normIdemOK "https://www.example.com/a/b?utm_source=x&q=1#top" = true ∧
      normalizeUrl (normalizeUrl "https://www.example.com/a/b?utm_source=x&q=1#top") =
        normalizeUrl "https://www.example.com/a/b?utm_source=x&q=1#top" :=
  ⟨by decide, normalizeUrl_conditional_idem _ (by decide)⟩

/-- Counterexample to C7 as literally stated: `https://example.com/foo//`
parses (it is a well-formed URL), yet each normalization pass strips exactly
one of its two trailing slashes. -/
theorem normalizeUrl_idem_counterexample :
    (parseUrlL ("https://example.com/foo//".data)).isSome = true ∧
      normalizeUrl "https://example.com/foo//" = "https://example.com/foo/" ∧
      normalizeUrl "https://example.com/foo/" = "https://example.com/foo" ∧
      normalizeUrl (normalizeUrl "https://example.com/foo//") ≠
        normalizeUrl "https://example.com/foo//" := by
  decide

/-- C8.  `heuristicRank` returns exactly the input links whose combined
URL + anchor + context text (lower-cased) matches at least one pattern of the
fixed weight table — a link's score being the maximum matched weight, links
matching nothing being dropped — sorted descending by that score; and the
scenario-D link, whose anchor text is "FY2025 RFP for IT Services", scores
the procurement-class maximum 0.95 (the `rfp|rfq|rfi` pattern).
`heuristicRank` takes no classifier argument, so no classification service is
involved. -/
theorem heuristicRank_spec (links : List ExtractedLink) :
    List.Perm (heuristicRank links) (links.filter (fun l => 0 < heuristicScore l)) ∧
      (heuristicRank links).Pairwise (fun a b => heuristicScore b ≤ heuristicScore a) ∧
      heuristicScore scenarioDLink = mkRat 95 100 :=
  ⟨heuristicRank_perm links, heuristicRank_sorted links, by decide⟩

/-- C9.  A robots.txt carrying `Crawl-delay: 5` inside the `User-agent: *`
block parses to a crawl delay of 5000 ms (seconds converted to
milliseconds), and `scrape` applies it as a floor on the request delay: the
effective per-request delay is `max(requestDelayMs || 1000, 5000)` for every
configured value. -/
theorem robots_crawl_delay_floor (configured : Option Nat) :
    (getRobotsInfo (some "User-agent: *\nCrawl-delay: 5\nDisallow: /private")).crawlDelay =
        some 5000 ∧
      effectiveRequestDelay configured
          (getRobotsInfo (some "User-agent: *\nCrawl-delay: 5\nDisallow: /private")) =
        some (max (jsOr configured 1000) 5000) := by
  have h : (getRobotsInfo
      (some "User-agent: *\nCrawl-delay: 5\nDisallow: /private")).crawlDelay = some 5000 := by
    decide
  refine ⟨h, ?_⟩
  unfold effectiveRequestDelay
  rw [h]
  simp

/-- C10.  `isUrlAllowed` treats unparseable URLs as blocked: when
`new URL(url)` would throw (`parseUrlL` returns `none`), the `catch` branch
returns `false` for every disallow list — fail-closed, in contrast to the
fail-open handling of robots fetch failures and classifier errors. -/
theorem isUrlAllowed_fail_closed (url : String) (disallowed : List String)
    (h : parseUrlL url.data = none) :
    isUrlAllowed url disallowed = false := by
  unfold isUrlAllowed
  rw [h]

/-- Witness for C10 on a string that does not parse as a URL. -/
theorem isUrlAllowed_fail_closed_witness :
    parseUrlL ("not a url".data) = none ∧
      isUrlAllowed "not a url" ["/private"] = false :=
  ⟨by decide, isUrlAllowed_fail_closed "not a url" ["/private"] (by decide)⟩

end Scraper
